import Mathlib

/-!
Verification development for the ASH0 codec tools (Compressor `ashcomp`,
Decompressor `ashdec`, and the older Extractor variant).

The C sources are shallowly embedded here:
* byte buffers are `List Nat` (each element a byte value),
* 32-bit unsigned arithmetic is `Nat` with explicit `% 2^32` where the C
  code can wrap,
* the heap-allocated Huffman node arrays of the compressor are modelled by
  the binary tree `Ash.HTree` (the C array cells only ever form such a
  tree; `left`/`right` pointers become subtrees),
* the decoder's fallible operations (the `CX_ASSERT` aborts of
  `ashdec`) are `Except Ash.DErr`,
* loops whose termination is not structural get an explicit fuel that is
  large enough to be unreachable on every terminating C execution; burning
  the fuel models a diverging (or undefined-behaviour) C execution.

Definitions keep the names of the C functions they embed.
-/

set_option maxRecDepth 20000

namespace Ash

/-- Huffman tree node, embedding `CxiHuffNode` from `src/Compressor/main.c`.
A C node is a leaf iff both child pointers are `NULL`; the remaining
fields (`sym`, `symMin`, `symMax`, `nRepresent`, `freq`) are stored.  For
a leaf, `CxiHuffmanInit` always stores `symMin = symMax = sym` and
`nRepresent = 1` and those fields are never mutated afterwards, so the
leaf constructor keeps only `sym` and `freq` and the accessors below
recover the stored values.  `nRepresent` is a `uint16_t` in C, hence the
`% 65536` in `mkBranch`. -/
inductive HTree where
  | leaf (sym freq : Nat)
  | node (freq symMin symMax nRep : Nat) (left right : HTree)
deriving DecidableEq, Repr

namespace HTree

def freqOf : HTree → Nat
  | .leaf _ f => f
  | .node f _ _ _ _ _ => f

def symMinOf : HTree → Nat
  | .leaf s _ => s
  | .node _ mn _ _ _ _ => mn

def symMaxOf : HTree → Nat
  | .leaf s _ => s
  | .node _ _ mx _ _ _ => mx

def nRepOf : HTree → Nat
  | .leaf _ _ => 1
  | .node _ _ _ nr _ _ => nr

/-- Symbols of all leaves of a tree, in left-to-right order. -/
def leavesOf : HTree → List Nat
  | .leaf s _ => [s]
  | .node _ _ _ _ l r => leavesOf l ++ leavesOf r

end HTree

def dfltNode : HTree := .leaf 0 0

/-- Frequency histogram, the `freq` fields of a `CxiHuffNode` array
indexed by symbol.  The C arrays are modelled as functions from the
index; out-of-bounds accesses of the C code (which would touch adjacent
heap memory) simply address points the pipeline never reads back. -/
abbrev Hist := Nat → Nat

/-- Symbols `i ∈ [lo, lo + len)` with `h i ≠ 0`, in ascending order.
This embeds the ascending `for` loops of the C code that visit each
histogram cell once (counting or collecting used symbols); the index
range is split recursively in halves purely so that evaluating the
definition inside the kernel needs only logarithmic recursion depth.
`presentSyms_eq_filter` below proves it equal to the straightforward
left-to-right filter over the index range. -/
def presentSymsGo (h : Hist) : Nat → Nat → Nat → List Nat
  | _, _, 0 => []
  | lo, len, fuel+1 =>
      if len = 0 then []
      else if len = 1 then (if h lo != 0 then [lo] else [])
      else
        presentSymsGo h lo (len / 2) fuel ++
          presentSymsGo h (lo + len / 2) (len - len / 2) fuel

/-- Ascending list of the symbols below `n` with nonzero frequency. -/
def presentSyms (h : Hist) (n : Nat) : List Nat := presentSymsGo h 0 n n

/-- Number of histogram entries with nonzero frequency (the counting
loop at the top of `CxiAshEnsureTreeElements`). -/
def countPresent (h : Hist) (n : Nat) : Nat := (presentSyms h n).length

/-- Leaves of the used symbols, as set up by `CxiHuffmanInit` (`sym` is a
`uint16_t`, hence the `% 65536`; `symMin = symMax = sym` and
`nRepresent = 1` are recovered by the `HTree.leaf` accessors). -/
def usedLeaves (h : Hist) (n : Nat) : List HTree :=
  (presentSyms h n).map (fun i => HTree.leaf (i % 65536) (h i))

/-- Sorting by frequency, descending, as done by `qsort` with
`CxiHuffmanNodeComparator`.  `qsort` leaves the order of equal-frequency
entries unspecified; the embedding fixes it with a deterministic stable
insertion sort, which is one legal refinement of the C behaviour. -/
def sortByFreqDesc (l : List HTree) : List HTree :=
  List.insertionSort (fun a b => b.freqOf ≤ a.freqOf) l

/-- Merging the two lowest-frequency roots into a branch node, embedding
the body of the package loop in `CxiHuffmanConstructTree` (`branch->…`
assignments).  `nRepresent` is a `uint16_t`, so the sum wraps. -/
def mkBranch (l r : HTree) : HTree :=
  .node (l.freqOf + r.freqOf) (min l.symMinOf r.symMinOf) (max r.symMaxOf l.symMaxOf)
    ((l.nRepOf + r.nRepOf) % 65536) l r

/-- The package-merge loop of `CxiHuffmanConstructTree`: while more than
one root remains, merge the two tail (lowest-frequency) roots and
re-sort.  The fuel is the initial number of roots, which bounds the
number of merges. -/
def mergeLoopGo : Nat → List HTree → HTree
  | _, [] => dfltNode
  | _, [t] => t
  | 0, t :: _ => t
  | fuel+1, t₁ :: t₂ :: rest =>
      mergeLoopGo fuel (sortByFreqDesc ((t₁ :: t₂ :: rest).dropLast.dropLast ++
        [mkBranch ((t₁ :: t₂ :: rest).dropLast.getLastD dfltNode)
          ((t₁ :: t₂ :: rest).getLastD dfltNode)]))

/-- Embeds `CxiHuffmanMakeShallowFirst`: at every internal node, swap the
children when `left->nRepresent > right->nRepresent`, then recurse. -/
def cxiHuffmanMakeShallowFirst : HTree → HTree
  | .leaf s f => .leaf s f
  | .node f mn mx nr l r =>
      if l.nRepOf > r.nRepOf then
        .node f mn mx nr (cxiHuffmanMakeShallowFirst r) (cxiHuffmanMakeShallowFirst l)
      else
        .node f mn mx nr (cxiHuffmanMakeShallowFirst l) (cxiHuffmanMakeShallowFirst r)

/-- Embeds `CxiHuffmanConstructTree` on the histogram of a `nNodes`-symbol
alphabet.  The C code sorts the whole leaf array descending by frequency
and then cuts `nNodes` at the first zero-frequency entry.  Under the
stable sort every zero-frequency leaf lands after every used leaf, so the
kept prefix equals the stable descending sort of the used leaves alone,
which is what is built here.  When every frequency is zero the C merge
loop does not run and the shallow-first pass is applied to `nodes[0]`,
which the stable sort leaves as the symbol-0 leaf. -/
def cxiHuffmanConstructTree (h : Hist) (nNodes : Nat) : HTree :=
  cxiHuffmanMakeShallowFirst
    (if (sortByFreqDesc (usedLeaves h nNodes)).isEmpty then
      (if nNodes = 0 then dfltNode else HTree.leaf 0 (h 0))
    else
      mergeLoopGo (sortByFreqDesc (usedLeaves h nNodes)).length
        (sortByFreqDesc (usedLeaves h nNodes)))

/-- Structural invariant of built trees (C5): at every internal node the
leaf-symbol sets of the two children are disjoint.  Together with
`rangeConsistent` this is the precise sense in which the `symMin`/
`symMax` ranges of siblings are "disjoint or nested-consistent": the
stored interval of a node bounds exactly its own leaf symbols (a
superset prune), intervals of siblings may overlap, but the underlying
symbol sets never do. -/
def childLeavesDisjoint : HTree → Bool
  | .leaf _ _ => true
  | .node _ _ _ _ l r =>
      l.leavesOf.all (fun s => decide (s ∉ r.leavesOf)) &&
        childLeavesDisjoint l && childLeavesDisjoint r

/-- Structural invariant of built trees (C5): at every node the stored
`symMin`/`symMax` pair bounds every leaf symbol of the subtree and both
bounds are attained by leaves. -/
def rangeConsistent : HTree → Bool
  | .leaf _ _ => true
  | .node _ mn mx _ l r =>
      (l.leavesOf ++ r.leavesOf).all (fun s => decide (mn ≤ s) && decide (s ≤ mx)) &&
        decide (mn ∈ l.leavesOf ++ r.leavesOf) &&
        decide (mx ∈ l.leavesOf ++ r.leavesOf) &&
        rangeConsistent l && rangeConsistent r

/-- Structural invariant of built trees (C5): at every internal node the
stored `nRepresent` of the left child is at most that of the right child
(shallow-first normalization). -/
def shallowFirstOrdered : HTree → Bool
  | .leaf _ _ => true
  | .node _ _ _ _ l r =>
      decide (l.nRepOf ≤ r.nRepOf) && shallowFirstOrdered l && shallowFirstOrdered r

/-- Embeds `CxiHuffmanHasSymbol`: a leaf answers by symbol equality; an
internal node first prunes by the stored `[symMin, symMax]` range and
then recurses into both children. -/
def cxiHuffmanHasSymbol : HTree → Nat → Bool
  | .leaf s _, sym => s == sym
  | .node _ mn mx _ l r, sym =>
      if sym < mn || sym > mx then false
      else cxiHuffmanHasSymbol l sym || cxiHuffmanHasSymbol r sym

/-- Embeds `CxiHuffmanWriteSymbol` as the list of emitted bits: descend
from the root, emitting `0` when the left child contains the symbol and
`1` otherwise. -/
def cxiHuffmanWriteSymbol : HTree → Nat → List Bool
  | .leaf _ _, _ => []
  | .node _ _ _ _ l r, sym =>
      if cxiHuffmanHasSymbol l sym then false :: cxiHuffmanWriteSymbol l sym
      else true :: cxiHuffmanWriteSymbol r sym

/-- Embeds `CxiHuffmanGetNodeDepth`.  Note the C behaviour embedded
faithfully: a leaf returns 0 regardless of its symbol, and an internal
node returns 0 (the `//!!!` branch) when neither child contains the
symbol. -/
def cxiHuffmanGetNodeDepth : HTree → Nat → Nat
  | .leaf _ _, _ => 0
  | .node _ _ _ _ l r, sym =>
      if cxiHuffmanHasSymbol l sym then cxiHuffmanGetNodeDepth l sym + 1
      else if cxiHuffmanHasSymbol r sym then cxiHuffmanGetNodeDepth r sym + 1
      else 0

/-- Embeds `CxiHuffmanEnumerateSymbolInfoInternal`: collect `(sym, depth)`
for every leaf with `sym ≥ nMin`, in tree order. -/
def cxiHuffmanEnumerateSymbolInfoGo : HTree → Nat → Nat → List (Nat × Nat)
  | .leaf s _, depth, nMin => if s ≥ nMin then [(s, depth)] else []
  | .node _ _ _ _ l r, depth, nMin =>
      cxiHuffmanEnumerateSymbolInfoGo l (depth+1) nMin ++
        cxiHuffmanEnumerateSymbolInfoGo r (depth+1) nMin

/-- Embeds `CxiHuffmanEnumerateSymbolInfo`: the collected leaf info,
sorted ascending by symbol (`CxiHuffSymbolInfoComparator`). -/
def cxiHuffmanEnumerateSymbolInfo (t : HTree) (nMin : Nat) : List (Nat × Nat) :=
  List.insertionSort (fun a b => a.1 ≤ b.1) (cxiHuffmanEnumerateSymbolInfoGo t 0 nMin)

/-- The promotion loop of `CxiAshEnsureTreeElements`: scanning the
histogram cells in ascending symbol order starting at `i` (with
`fuel = n - i` cells left), collect the indices whose zero frequency the
loop sets to 1, stopping as soon as `nPresent` reaches `minN`. -/
def promotedIdxs (h : Hist) (minN : Nat) : Nat → Nat → Nat → List Nat
  | _, 0, _ => []
  | i, fuel+1, nPresent =>
      if h i = 0 then
        if nPresent + 1 ≥ minN then [i]
        else i :: promotedIdxs h minN (i+1) fuel (nPresent+1)
      else promotedIdxs h minN (i+1) fuel nPresent

/-- Embeds `CxiAshEnsureTreeElements` on a histogram over `n` symbols:
count the used symbols; if fewer than `minN`, promote zero-frequency
cells to frequency 1 in ascending order until `minN` are used (or the
histogram is exhausted). -/
def cxiAshEnsureTreeElements (h : Hist) (n minN : Nat) : Hist :=
  if countPresent h n ≥ minN then h
  else
    let promoted := promotedIdxs h minN 0 n (countPresent h n)
    fun j => if promoted.contains j then 1 else h j

/-- Restatement of the ensure-elements guard following the spec's words
(for comparison with the embedded loop): if fewer than `minN` symbols
are present, the first `minN - present` zero-frequency symbols, in
ascending symbol order, get frequency 1. -/
def ensureElementsSpec (h : Hist) (n minN : Nat) : Hist :=
  if ((List.range n).filter (fun i => h i != 0)).length ≥ minN then h
  else fun j =>
    if (((List.range n).filter (fun i => h i == 0)).take
        (minN - ((List.range n).filter (fun i => h i != 0)).length)).contains j
    then 1 else h j

/-- Byte-by-byte comparison loop (first branch of `CxiCompareMemory`):
count the matching prefix of `b1`/`b2`, at most `n` bytes, both cursors
advancing. -/
def cmpLinear : List Nat → List Nat → Nat → Nat
  | _, _, 0 => 0
  | a :: as, b :: bs, n+1 => if a = b then cmpLinear as bs n + 1 else 0
  | _, _, _+1 => 0

/-- The second branch of `CxiCompareMemory` (block-repeating compare with
`b1` fixed).  After the clamp `nMax := min nMax nAbsoluteMax` the guard
`nAbsoluteMax >= nMax` always holds, so this branch is unreachable; it is
embedded anyway, with fuel standing in for the loop whose unsigned
counter could wrap. -/
def cxiCompareMemoryLoop (b1 : List Nat) (nMax : Nat) : Nat → List Nat → Nat → Nat
  | 0, _, _ => 0
  | fuel+1, b2, nAbs =>
      if nAbs = 0 then 0
      else
        let nSameThis := cmpLinear (b1.take nMax) b2 nMax
        if nSameThis < nMax then nSameThis
        else nSameThis + cxiCompareMemoryLoop b1 nMax fuel (b2.drop nSameThis) (nAbs - nSameThis)

/-- Embeds `CxiCompareMemory`. -/
def cxiCompareMemory (b1 b2 : List Nat) (nMax nAbsoluteMax : Nat) : Nat :=
  let nMax := if nMax > nAbsoluteMax then nAbsoluteMax else nMax
  if nAbsoluteMax ≥ nMax then cmpLinear b1 b2 nAbsoluteMax
  else cxiCompareMemoryLoop b1 nMax nAbsoluteMax b2 nAbsoluteMax

/-- Contiguous slice `buffer[pos .. pos+len)`. -/
def listSlice (buffer : List Nat) (pos len : Nat) : List Nat := (buffer.drop pos).take len

/-- Block-wise loop of `CxiLzConfirmMatch` for overlapped matches
(`length > distance`): compare `min(remaining, distance)` bytes per round
against the fixed window at `pos - distance`.  Fuel bounds the rounds; it
can only run out when `distance = 0`, where the C loop would not
terminate. -/
def cxiLzConfirmMatchGo (buffer : List Nat) (pos distance : Nat) : Nat → Nat → Nat → Bool
  | 0, _, nTotal => nTotal = 0
  | fuel+1, compareSrc, nTotal =>
      if nTotal = 0 then true
      else
        let nCompare := min nTotal distance
        if nCompare = 0 then false
        else if listSlice buffer compareSrc nCompare == listSlice buffer (pos - distance) nCompare
          then cxiLzConfirmMatchGo buffer pos distance fuel (compareSrc + nCompare) (nTotal - nCompare)
          else false

/-- Embeds `CxiLzConfirmMatch`. -/
def cxiLzConfirmMatch (buffer : List Nat) (size pos distance length : Nat) : Bool :=
  let _ := size
  if length ≤ distance then
    listSlice buffer pos length == listSlice buffer (pos - distance) length
  else cxiLzConfirmMatchGo buffer pos distance (length + 1) pos length

/-- The per-candidate comparison of the search loops (the local
`nMatched` with its `nCompare` clamp chain): compare at the candidate
distance `j`. -/
def searchStepCompare (buffer : List Nat) (curpos nMaxCompare maxLength j : Nat) : Nat :=
  cxiCompareMemory (buffer.drop (curpos - j)) (buffer.drop curpos)
    (min (min maxLength j) nMaxCompare) nMaxCompare

/-- Search loop of `CxiSearchLZ` over candidate distances `j`, keeping the
first largest match and breaking early when the cap `nMaxCompare` is
reached.  Fuel is the number of remaining candidates. -/
def cxiSearchLZGo (buffer : List Nat) (curpos nMaxCompare maxLength maxDistance : Nat) :
    Nat → Nat → Nat → Nat → Nat × Nat
  | _, 0, best, bestIdx => (best, bestIdx)
  | j, fuel+1, best, bestIdx =>
      if j > maxDistance then (best, bestIdx)
      else
        if searchStepCompare buffer curpos nMaxCompare maxLength j > best then
          if searchStepCompare buffer curpos nMaxCompare maxLength j = nMaxCompare then
            (searchStepCompare buffer curpos nMaxCompare maxLength j, j)
          else
            cxiSearchLZGo buffer curpos nMaxCompare maxLength maxDistance (j+1) fuel
              (searchStepCompare buffer curpos nMaxCompare maxLength j) j
        else cxiSearchLZGo buffer curpos nMaxCompare maxLength maxDistance (j+1) fuel best bestIdx

/-- Embeds `CxiSearchLZ`; returns `(length, distance)` (the C return
value and the `*pDistance` out-parameter). -/
def cxiSearchLZ (buffer : List Nat) (size curpos minDistance maxDistance maxLength : Nat) :
    Nat × Nat :=
  let nBytesLeft := size - curpos
  let maxDistance := min maxDistance curpos
  let nMaxCompare := min maxLength nBytesLeft
  cxiSearchLZGo buffer curpos nMaxCompare maxLength maxDistance minDistance (maxDistance + 1) 0 0

/-- Search loop of `CxiSearchLZRestricted` over the explicit ascending
distance list, breaking once a candidate exceeds `maxDistance`. -/
def cxiSearchLZRestrictedGo (buffer : List Nat) (curpos nMaxCompare maxLength maxDistance : Nat) :
    List Nat → Nat → Nat → Nat × Nat
  | [], best, bestIdx => (best, bestIdx)
  | j :: rest, best, bestIdx =>
      if j > maxDistance then (best, bestIdx)
      else
        if searchStepCompare buffer curpos nMaxCompare maxLength j > best then
          if searchStepCompare buffer curpos nMaxCompare maxLength j = nMaxCompare then
            (searchStepCompare buffer curpos nMaxCompare maxLength j, j)
          else
            cxiSearchLZRestrictedGo buffer curpos nMaxCompare maxLength maxDistance rest
              (searchStepCompare buffer curpos nMaxCompare maxLength j) j
        else cxiSearchLZRestrictedGo buffer curpos nMaxCompare maxLength maxDistance rest best bestIdx

/-- Embeds `CxiSearchLZRestricted`. -/
def cxiSearchLZRestricted (buffer : List Nat) (size curpos : Nat) (distances : List Nat)
    (maxLength : Nat) : Nat × Nat :=
  if distances.isEmpty then (0, 0)
  else
    let nBytesLeft := size - curpos
    let maxDistance := min (distances.getLastD 0) curpos
    let nMaxCompare := min maxLength nBytesLeft
    cxiSearchLZRestrictedGo buffer curpos nMaxCompare maxLength maxDistance distances 0 0

/-- LZ token, embedding `CxiLzToken`. -/
inductive LzTok where
  | lit (symbol : Nat)
  | ref (length distance : Nat)
deriving DecidableEq, Repr

def LzTok.isRef : LzTok → Bool
  | .lit _ => false
  | .ref _ _ => true

def LzTok.lengthOf : LzTok → Nat
  | .lit _ => 1
  | .ref l _ => l

def LzTok.distanceOf : LzTok → Nat
  | .lit _ => 0
  | .ref _ d => d

/-- Byte of the buffer at index `i` (reads of `buffer[i]` in C). -/
def byteAt (buffer : List Nat) (i : Nat) : Nat := buffer.getD i 0

/-- The maximum-length expression `(1 << nSymBits) - 1 - 0x100 + 3` of
`CxiAshTokenize`, computed in 32-bit unsigned arithmetic (it wraps for
`nSymBits < 8`). -/
def ashMaxLength (nSymBits : Nat) : Nat := (2 ^ nSymBits + 2 ^ 32 - 254) % 2 ^ 32

/-- The scanning loop of `CxiAshTokenize`.  Each step advances `curpos`
by at least one, so fuel `size` is never exhausted. -/
def cxiAshTokenizeGo (buffer : List Nat) (size nSymBits nDstBits : Nat) :
    Nat → Nat → List LzTok
  | _, 0 => []
  | curpos, fuel+1 =>
      if curpos < size then
        let ld := cxiSearchLZ buffer size curpos 1 (2 ^ nDstBits) (ashMaxLength nSymBits)
        if ld.1 ≥ 3 then
          .ref ld.1 ld.2 :: cxiAshTokenizeGo buffer size nSymBits nDstBits (curpos + ld.1) fuel
        else
          .lit (byteAt buffer curpos) :: cxiAshTokenizeGo buffer size nSymBits nDstBits (curpos + 1) fuel
      else []

/-- Embeds `CxiAshTokenize` (the greedy seed parse). -/
def cxiAshTokenize (buffer : List Nat) (nSymBits nDstBits : Nat) : List LzTok :=
  cxiAshTokenizeGo buffer buffer.length nSymBits nDstBits 0 buffer.length

/-- Histogram increment `nodes[i].freq++`. -/
def bumpAt (h : Hist) (i : Nat) : Hist := fun j => if j = i then h j + 1 else h j

/-- The frequency-distribution loop of `CxiAshGenHuffman`: for a
reference, `sym[length - 3 + 0x100]++` and `dst[distance - 1]++`; for a
literal, `sym[byte]++`. -/
def tokenHistograms (tokens : List LzTok) : Hist × Hist :=
  tokens.foldl
    (fun h tok =>
      match tok with
      | .ref length distance => (bumpAt h.1 (length - 3 + 0x100), bumpAt h.2 (distance - 1))
      | .lit s => (bumpAt h.1 s, h.2))
    (fun _ => 0, fun _ => 0)

/-- Embeds `CxiAshGenHuffman`: histograms from the tokens, the
ensure-two-elements guard, then tree construction for both alphabets. -/
def cxiAshGenHuffman (tokens : List LzTok) (nSymNodes nDstNodes : Nat) : HTree × HTree :=
  let h := tokenHistograms tokens
  let symF := cxiAshEnsureTreeElements h.1 nSymNodes 2
  let dstF := cxiAshEnsureTreeElements h.2 nDstNodes 2
  (cxiHuffmanConstructTree symF nSymNodes, cxiHuffmanConstructTree dstF nDstNodes)

/-- Scan loop of `CxiAshRoundDown` over the ascending value list,
tracking the largest value `< sym` and its index. -/
def cxiAshRoundDownGo (sym : Nat) : List Nat → Nat → Nat → Int → Nat × Int
  | [], _, lo, loIdx => (if lo = 0 then 1 else lo, loIdx)
  | v :: rest, i, lo, loIdx =>
      if v = sym then (sym, Int.ofNat i)
      else if v < sym then cxiAshRoundDownGo sym rest (i+1) v (Int.ofNat i)
      else (if lo = 0 then 1 else lo, loIdx)

/-- Embeds `CxiAshRoundDown`; returns `(rounded, index)` (the return value
and the `*pIndex` out-parameter). -/
def cxiAshRoundDown (sym : Nat) (vals : List Nat) : Nat × Int :=
  if sym = 0 then (0, -1) else cxiAshRoundDownGo sym vals 0 0 (-1)

/-- Parse-graph entry, embedding `CxiLzNode`. -/
structure LzNodeEntry where
  token : LzTok
  weight : Nat
deriving DecidableEq, Repr

def dfltLzNode : LzNodeEntry := ⟨.lit 0, 0⟩

/-- Weight of the node at absolute position `pos + offset` where `acc`
holds the already-computed entries for positions `pos+1 …` (head first). -/
def nextWeight (acc : List LzNodeEntry) (offset : Nat) : Nat :=
  (acc.getD (offset - 1) dfltLzNode).weight

/-- The scan-size-down loop of `CxiAshRetokenize` (the `while (length)`
loop): try each candidate length obtained by successive round-downs and
keep the cheapest.  Fuel is `length + 1`; `CxiAshRoundDown (length-1)`
is strictly below `length`, so the fuel is never exhausted. -/
def scanLengths (buffer : List Nat) (size pos : Nat) (symNodes : HTree)
    (lens : List Nat) (lenInfo : List (Nat × Nat)) (acc : List LzNodeEntry) :
    Nat → Nat → Int → Nat → Nat → Nat × Nat
  | 0, _, _, weightBest, lengthBest => (weightBest, lengthBest)
  | fuel+1, length, lengthIndex, weightBest, lengthBest =>
      if length = 0 then (weightBest, lengthBest)
      else
        let thisLengthWeight :=
          if length > 1 then (lenInfo.getD lengthIndex.toNat (0, 0)).2
          else cxiHuffmanGetNodeDepth symNodes (byteAt buffer pos)
        let thisWeight :=
          if pos + length = size then thisLengthWeight
          else thisLengthWeight + nextWeight acc length
        let best :=
          if thisWeight < weightBest then (thisWeight, length) else (weightBest, lengthBest)
        let rd := cxiAshRoundDown (length - 1) lens
        scanLengths buffer size pos symNodes lens lenInfo acc fuel rd.1 rd.2 best.1 best.2

/-- The distance re-pick loop of `CxiAshRetokenize`: scan the admissible
distances ascending (stopping at `dst > pos`) and take any confirmed
match whose distance code is cheaper than the current cost. -/
def rePickDistance (buffer : List Nat) (size pos length : Nat) :
    List (Nat × Nat) → Nat → Nat → Nat × Nat
  | [], dstCost, distance => (dstCost, distance)
  | (s, d) :: rest, dstCost, distance =>
      let dst := s + 1
      if dst > pos then (dstCost, distance)
      else if d < dstCost && cxiLzConfirmMatch buffer size pos dst length then
        rePickDistance buffer size pos length rest d dst
      else rePickDistance buffer size pos length rest dstCost distance

/-- One reverse-DP step of `CxiAshRetokenize`: the parse-graph entry for
position `pos`, given in `acc` the entries for all later positions. -/
def retokNodeFor (buffer : List Nat) (size : Nat) (symNodes dstNodes : HTree)
    (lenInfo dstInfo : List (Nat × Nat)) (lens dsts : List Nat)
    (pos : Nat) (acc : List LzNodeEntry) : LzNodeEntry :=
  let ld :=
    if lenInfo.length > 0 then
      cxiSearchLZRestricted buffer size pos dsts (lens.getLastD 0)
    else (0, 0)
  let rd := if ld.1 ≥ 3 then cxiAshRoundDown ld.1 lens else (1, (-1 : Int))
  if rd.1 < 3 then
    let weight := cxiHuffmanGetNodeDepth symNodes (byteAt buffer pos) +
      (if pos + 1 < size then nextWeight acc 1 else 0)
    ⟨.lit (byteAt buffer pos), weight⟩
  else
    let dstCost := cxiHuffmanGetNodeDepth dstNodes (ld.2 - 1)
    let best :=
      scanLengths buffer size pos symNodes lens lenInfo acc (rd.1 + 1) rd.1 rd.2 4294967295 rd.1
    if best.2 < 3 then
      ⟨.lit (byteAt buffer pos), best.1⟩
    else
      let dc := rePickDistance buffer size pos best.2 dstInfo dstCost ld.2
      ⟨.ref best.2 dc.2, best.1 + dc.1⟩

/-- The backwards fill loop of `CxiAshRetokenize` (`while (pos-- > 0)`),
accumulating the parse graph with the entry for the smallest position at
the head. -/
def cxiAshRetokenizeGo (buffer : List Nat) (size : Nat) (symNodes dstNodes : HTree)
    (lenInfo dstInfo : List (Nat × Nat)) (lens dsts : List Nat) :
    Nat → List LzNodeEntry → List LzNodeEntry
  | 0, acc => acc
  | p+1, acc =>
      cxiAshRetokenizeGo buffer size symNodes dstNodes lenInfo dstInfo lens dsts p
        (retokNodeFor buffer size symNodes dstNodes lenInfo dstInfo lens dsts p acc :: acc)

/-- The forward walk converting the parse graph into the token stream. -/
def walkTokens (nodes : List LzNodeEntry) (size : Nat) : Nat → Nat → List LzTok
  | _, 0 => []
  | pos, fuel+1 =>
      if pos < size then
        match (nodes.getD pos dfltLzNode).token with
        | .ref l d => .ref l d :: walkTokens nodes size (pos + l) fuel
        | .lit s => .lit s :: walkTokens nodes size (pos + 1) fuel
      else []

/-- Embeds `CxiAshRetokenize`: restricted-alphabet optimal parse against
the current trees' code depths. -/
def cxiAshRetokenize (buffer : List Nat) (symNodes dstNodes : HTree) : List LzTok :=
  let size := buffer.length
  let lenInfo := cxiHuffmanEnumerateSymbolInfo symNodes 0x100
  let dstInfo := cxiHuffmanEnumerateSymbolInfo dstNodes 0
  let lens := lenInfo.map (fun p => p.1 - 0x100 + 3)
  let dsts := dstInfo.map (fun p => p.1 + 1)
  let nodes := cxiAshRetokenizeGo buffer size symNodes dstNodes lenInfo dstInfo lens dsts size []
  walkTokens nodes size 0 size

/-- Fixed-width big-endian bit field, embedding `CxiBitStreamWriteBitsBE`. -/
def cxiBitStreamWriteBitsBE (bits nBits : Nat) : List Bool :=
  (List.range nBits).map (fun i => (bits / 2 ^ (nBits - 1 - i)) % 2 == 1)

/-- Embeds `CxiAshWriteTree`: pre-order, `1` for an internal node (then
left, then right), `0` plus the fixed-width symbol for a leaf. -/
def cxiAshWriteTree : HTree → Nat → List Bool
  | .node _ _ _ _ l r, nBits => true :: (cxiAshWriteTree l nBits ++ cxiAshWriteTree r nBits)
  | .leaf s _, nBits => false :: cxiBitStreamWriteBitsBE s nBits

/-- Value of a big-endian byte given as (at most) 8 bits. -/
def bitsToByte (bits : List Bool) : Nat :=
  bits.foldl (fun acc b => 2 * acc + (if b then 1 else 0)) 0

/-- Chunk the padded bit sequence into `n` bytes of 8 bits each. -/
def bytesOfBitsGo : Nat → List Bool → List Nat
  | 0, _ => []
  | n+1, bits => bitsToByte (bits.take 8) :: bytesOfBitsGo n (bits.drop 8)

/-- Embeds `CxiBitStreamGetBytes` in the configuration used by
`CxCompressAsh` (`wordAlign = beBytes = beBits = 1`): the bit sequence is
stored MSB-first in 32-bit words; with big-endian byte order and
big-endian bit order the output bytes are exactly the consecutive 8-bit
groups of the zero-padded bit sequence, `4 * nWords` bytes in total. -/
def cxiBitStreamGetBytes (bits : List Bool) : List Nat :=
  bytesOfBitsGo ((bits.length + 31) / 32 * 4)
    (bits ++ List.replicate ((bits.length + 31) / 32 * 32 - bits.length) false)

/-- Big-endian bytes of a 32-bit value (the `LittleToBig` stores of the
header words, viewed as the bytes they put in the file). -/
def be32Bytes (n : Nat) : List Nat :=
  [n / 2 ^ 24 % 256, n / 2 ^ 16 % 256, n / 2 ^ 8 % 256, n % 256]

/-- The per-token emission loop of `CxCompressAsh`: reference tokens send
`length - 3 + 0x100` to the sym stream and `distance - 1` to the dist
stream; literals send the byte to the sym stream. -/
def emitTokens (tokens : List LzTok) (symT dstT : HTree) : List Bool × List Bool :=
  tokens.foldl
    (fun acc tok =>
      match tok with
      | .ref l d =>
          (acc.1 ++ cxiHuffmanWriteSymbol symT (l - 3 + 0x100),
           acc.2 ++ cxiHuffmanWriteSymbol dstT (d - 1))
      | .lit s => (acc.1 ++ cxiHuffmanWriteSymbol symT s, acc.2))
    ([], [])

/-- The retokenization passes loop of `CxCompressAsh`. -/
def compressPasses (buffer : List Nat) (nSymNodes nDstNodes : Nat) :
    Nat → List LzTok × HTree × HTree → List LzTok × HTree × HTree
  | 0, st => st
  | n+1, st =>
      let tokens := cxiAshRetokenize buffer st.2.1 st.2.2
      let ts := cxiAshGenHuffman tokens nSymNodes nDstNodes
      compressPasses buffer nSymNodes nDstNodes n (tokens, ts.1, ts.2)

/-- Final token stream and trees of `CxCompressAsh` after the greedy
parse, the initial tree build and the `nPasses` retokenization passes. -/
def ashFinalState (buffer : List Nat) (nSymBits nDstBits nPasses : Nat) :
    List LzTok × HTree × HTree :=
  let tokens0 := cxiAshTokenize buffer nSymBits nDstBits
  let ts0 := cxiAshGenHuffman tokens0 (2 ^ nSymBits) (2 ^ nDstBits)
  compressPasses buffer (2 ^ nSymBits) (2 ^ nDstBits) nPasses (tokens0, ts0.1, ts0.2)

/-- The complete sym bit stream of `CxCompressAsh`: serialized sym tree
followed by the per-token sym codes. -/
def ashSymStream (buffer : List Nat) (nSymBits nDstBits nPasses : Nat) : List Bool :=
  let st := ashFinalState buffer nSymBits nDstBits nPasses
  cxiAshWriteTree st.2.1 nSymBits ++ (emitTokens st.1 st.2.1 st.2.2).1

/-- The complete dist bit stream of `CxCompressAsh`: serialized dist tree
followed by the per-reference distance codes. -/
def ashDstStream (buffer : List Nat) (nSymBits nDstBits nPasses : Nat) : List Bool :=
  let st := ashFinalState buffer nSymBits nDstBits nPasses
  cxiAshWriteTree st.2.2 nDstBits ++ (emitTokens st.1 st.2.1 st.2.2).2

/-- Embeds `CxCompressAsh`: greedy tokenize, build trees, `nPasses`
retokenization passes, serialize both trees followed by the token codes
into the two word-aligned streams, and prepend the 12-byte header
(`'ASH0'` — the bytes of the little-endian constant `0x30485341` — then
the big-endian size and the big-endian dist-stream offset
`0xC + symStreamSize`). -/
def cxCompressAsh (buffer : List Nat) (nSymBits nDstBits nPasses : Nat) : List Nat :=
  let symBytes := cxiBitStreamGetBytes (ashSymStream buffer nSymBits nDstBits nPasses)
  let dstBytes := cxiBitStreamGetBytes (ashDstStream buffer nSymBits nDstBits nPasses)
  [0x41, 0x53, 0x48, 0x30] ++ be32Bytes (buffer.length % 2 ^ 32) ++
    be32Bytes ((0xC + symBytes.length) % 2 ^ 32) ++ symBytes ++ dstBytes

/-- Decoder failure, embedding the `CX_ASSERT`/`AbortInvalidData` exits of
`ashdec` plus the undefined behaviours the C code can reach:
`truncatedInput` is the bounds assertion in `CxBitReaderFeedWord`;
`invalidData` the two back-reference assertions of the main loop;
`headerOutOfBounds` models the unchecked reads of `inbuf+4`/`inbuf+8`
on a buffer shorter than the 12-byte header (a heap over-read in C);
`stackUnderflow` the pop from an empty work stack in `CxAshReadTree`;
`stuck` a diverging C loop (fuel exhausted). -/
inductive DErr where
  | truncatedInput
  | headerOutOfBounds
  | invalidData
  | stackUnderflow
  | stuck
deriving DecidableEq, Repr

/-- Bit reader state, embedding `CxBitReader` of `src/Decompressor/main.c`. -/
structure BitReader where
  srcp : List Nat
  size : Nat
  srcpos : Nat
  word : Nat
  bitCapacity : Nat
deriving DecidableEq, Repr

/-- Big-endian 32-bit value at byte offset `pos` (the C pattern
`BigToLittle32(*(const u32 *)(p + pos))` on a little-endian host). -/
def be32At (bytes : List Nat) (pos : Nat) : Nat :=
  byteAt bytes pos * 2 ^ 24 + byteAt bytes (pos + 1) * 2 ^ 16 +
    byteAt bytes (pos + 2) * 2 ^ 8 + byteAt bytes (pos + 3)

/-- Embeds `CxBitReaderFeedWord`: asserts `srcpos + 4 <= size`, then loads
the next big-endian word and resets the consumed-bit count. -/
def cxBitReaderFeedWord (r : BitReader) : Except DErr BitReader :=
  if r.srcpos + 4 ≤ r.size then
    .ok { r with word := be32At r.srcp r.srcpos, bitCapacity := 0, srcpos := r.srcpos + 4 }
  else .error .truncatedInput

/-- Embeds `CxBitReaderInit`. -/
def cxBitReaderInit (src : List Nat) (size startpos : Nat) : Except DErr BitReader :=
  cxBitReaderFeedWord { srcp := src, size := size, srcpos := startpos, word := 0, bitCapacity := 0 }

/-- Embeds `CxBitReaderReadBit`: returns the top bit; refills eagerly when
this was the 32nd bit of the current word (`bitCapacity == 31`). -/
def cxBitReaderReadBit (r : BitReader) : Except DErr (Nat × BitReader) :=
  let bit := r.word / 2 ^ 31
  if r.bitCapacity = 31 then
    match cxBitReaderFeedWord r with
    | .error e => .error e
    | .ok r' => .ok (bit, r')
  else .ok (bit, { r with bitCapacity := r.bitCapacity + 1, word := r.word * 2 % 2 ^ 32 })

/-- Embeds `CxBitReaderReadBits`, including the eager refill when the read
exactly exhausts the word and the straddling two-word case. -/
def cxBitReaderReadBits (r : BitReader) (nBits : Nat) : Except DErr (Nat × BitReader) :=
  let next := r.bitCapacity + nBits
  if next ≤ 32 then
    let bits := r.word / 2 ^ (32 - nBits)
    if next ≠ 32 then
      .ok (bits, { r with word := r.word * 2 ^ nBits % 2 ^ 32, bitCapacity := next })
    else
      match cxBitReaderFeedWord r with
      | .error e => .error e
      | .ok r' => .ok (bits, r')
  else
    let bits := r.word / 2 ^ (32 - nBits)
    match cxBitReaderFeedWord r with
    | .error e => .error e
    | .ok r' =>
        .ok (bits ||| r'.word / 2 ^ (64 - next),
             { r' with word := r'.word * 2 ^ (next - 32) % 2 ^ 32, bitCapacity := next - 32 })

def TREE_RIGHT : Nat := 0x80000000
def TREE_LEFT : Nat := 0x40000000
def TREE_VAL_MASK : Nat := 0x3FFFFFFF

/-- Child-index array of the decoder (`leftTree` / `rightTree`,
`calloc`-zeroed `u32` arrays indexed by node number), modelled as a
function from the index.  A store to an index at or beyond the allocated
`2 * alphabet - 1` cells is heap corruption in C (never reached for
streams the encoder produces); the model simply records the value. -/
abbrev ChildArr := Nat → Nat

/-- Store `arr[idx] = v`. -/
def arrSet (arr : ChildArr) (idx v : Nat) : ChildArr :=
  fun j => if j = idx then v else arr j

/-- The inner unwind loop of `CxAshReadTree`: pop work entries; a RIGHT
tag stores the finished subtree into `rightTree[idx]` and continues with
`idx` as the new finished subtree; a LEFT tag stores into `leftTree[idx]`
and breaks.  Popping an empty stack is a buffer under-read in C. -/
def ashUnwind : List Nat → Nat → ChildArr → ChildArr → Nat →
    Except DErr (List Nat × ChildArr × ChildArr × Nat × Nat)
  | [], _, _, _, _ => .error .stackUnderflow
  | v :: rest, nNodes, lt, rt, symRoot =>
      let idx := v &&& TREE_VAL_MASK
      let nNodes' := nNodes - 1
      if v &&& TREE_RIGHT ≠ 0 then
        if nNodes' > 0 then ashUnwind rest nNodes' lt (arrSet rt idx symRoot) idx
        else .ok (rest, lt, arrSet rt idx symRoot, nNodes', idx)
      else .ok (rest, arrSet lt idx symRoot, rt, nNodes', symRoot)

/-- The outer loop of `CxAshReadTree`: bit `1` pushes a fresh internal
index (RIGHT then LEFT entries); bit `0` reads a `width`-bit leaf value
and unwinds.  Each iteration consumes at least one bit, so the fuel
passed by `cxAshReadTree` (more than the total number of bits in the
input) is never exhausted on a terminating C execution. -/
def cxAshReadTreeGo (width : Nat) :
    Nat → BitReader → List Nat → Nat → Nat → ChildArr → ChildArr → Nat →
    Except DErr (Nat × ChildArr × ChildArr × BitReader)
  | 0, _, _, _, _, _, _, _ => .error .stuck
  | fuel+1, reader, work, r23, nNodes, lt, rt, symRoot =>
      match cxBitReaderReadBit reader with
      | .error e => .error e
      | .ok (bit, reader) =>
        if bit ≠ 0 then
          cxAshReadTreeGo width fuel reader ((r23 ||| TREE_LEFT) :: (r23 ||| TREE_RIGHT) :: work)
            (r23 + 1) (nNodes + 2) lt rt symRoot
        else
          match cxBitReaderReadBits reader width with
          | .error e => .error e
          | .ok (v, reader) =>
            match ashUnwind work nNodes lt rt v with
            | .error e => .error e
            | .ok (work, lt, rt, nNodes, symRoot) =>
                if nNodes > 0 then
                  cxAshReadTreeGo width fuel reader work r23 nNodes lt rt symRoot
                else .ok (symRoot, lt, rt, reader)

/-- Embeds `CxAshReadTree`: returns the root index and the
`leftTree`/`rightTree` child arrays (zero-initialised by `calloc`). -/
def cxAshReadTree (reader : BitReader) (width : Nat) :
    Except DErr (Nat × ChildArr × ChildArr × BitReader) :=
  cxAshReadTreeGo width (8 * reader.size + 64) reader [] (2 ^ width) 0
    (fun _ => 0) (fun _ => 0) 0

/-- The tree-walk loops of `CxUncompressAsh`: follow child indices while
`sym ≥ bound`, steering by one bit per step (`0` = left).  Fuel bounds
the walk; a cyclic child array (possible only for inputs on which the C
code's behaviour is already undefined) would make the C loop diverge. -/
def huffWalk (lt rt : ChildArr) (bound : Nat) :
    Nat → Nat → BitReader → Except DErr (Nat × BitReader)
  | 0, _, _ => .error .stuck
  | fuel+1, sym, reader =>
      if sym < bound then .ok (sym, reader)
      else
        match cxBitReaderReadBit reader with
        | .error e => .error e
        | .ok (bit, reader) =>
            huffWalk lt rt bound fuel (if bit = 0 then lt sym else rt sym) reader

/-- The byte-at-a-time copy loop: each copied byte is the one `distsym`
positions from the head of the reversed output, i.e. `distsym + 1`
positions behind the write cursor, reproducing the overlap-safe
`*(destp++) = *(srcp++)` of the C code. -/
def lzCopy (distsym : Nat) : Nat → List Nat → List Nat
  | 0, revOut => revOut
  | n+1, revOut => lzCopy distsym n (revOut.getD distsym 0 :: revOut)

/-- The main do-while decompression loop of `CxUncompressAsh`, with the
output accumulated in reverse.  `remaining` is the C `uncompSize`
counter, a `u32`: the decrement on the literal path wraps when it is 0
(the loop body always runs at least once).  Each successful iteration
grows the output, and bit reads are bounded by the input size, so the
fuel chosen by `cxUncompressAsh` is never exhausted on a terminating C
execution. -/
def cxUncompressAshGo (symLt symRt distLt distRt : ChildArr)
    (symMax distMax symRoot distRoot : Nat) :
    Nat → BitReader → BitReader → List Nat → Nat → Except DErr (List Nat)
  | 0, _, _, _, _ => .error .stuck
  | fuel+1, reader, reader2, revOut, remaining =>
      match huffWalk symLt symRt symMax (2 * symMax) symRoot reader2 with
      | .error e => .error e
      | .ok (sym, reader2) =>
        if sym < 0x100 then
          if (remaining + 2 ^ 32 - 1) % 2 ^ 32 > 0 then
            cxUncompressAshGo symLt symRt distLt distRt symMax distMax symRoot distRoot
              fuel reader reader2 (sym :: revOut) ((remaining + 2 ^ 32 - 1) % 2 ^ 32)
          else .ok (sym :: revOut).reverse
        else
          match huffWalk distLt distRt distMax (2 * distMax) distRoot reader with
          | .error e => .error e
          | .ok (distsym, reader) =>
            if sym - 0x100 + 3 ≤ remaining then
              if revOut.length ≥ distsym + 1 then
                if remaining - (sym - 0x100 + 3) > 0 then
                  cxUncompressAshGo symLt symRt distLt distRt symMax distMax symRoot distRoot
                    fuel reader reader2 (lzCopy distsym (sym - 0x100 + 3) revOut)
                    (remaining - (sym - 0x100 + 3))
                else .ok (lzCopy distsym (sym - 0x100 + 3) revOut).reverse
              else .error .invalidData
            else .error .invalidData

/-- Uncompressed size declared by the header: the low 24 bits of the
big-endian word at offset 4. -/
def ashDeclaredSize (inbuf : List Nat) : Nat := be32At inbuf 4 % 2 ^ 24

/-- Embeds `CxUncompressAsh`: read the header fields, open the dist
reader at the header offset and the sym reader at `0xC`, deserialize both
trees, then run the main loop.  The C function dereferences `inbuf + 4`
and `inbuf + 8` without any bounds check; on a buffer shorter than the
12-byte header that is an out-of-bounds read, modelled as
`headerOutOfBounds`. -/
def cxUncompressAsh (inbuf : List Nat) (symBits distBits : Nat) : Except DErr (List Nat) :=
  if 12 ≤ inbuf.length then
    match cxBitReaderInit inbuf inbuf.length (be32At inbuf 8) with
    | .error e => .error e
    | .ok reader =>
      match cxBitReaderInit inbuf inbuf.length 0xC with
      | .error e => .error e
      | .ok reader2 =>
        match cxAshReadTree reader2 symBits with
        | .error e => .error e
        | .ok (symRoot, symLt, symRt, reader2) =>
          match cxAshReadTree reader distBits with
          | .error e => .error e
          | .ok (distRoot, distLt, distRt, reader) =>
              cxUncompressAshGo symLt symRt distLt distRt (2 ^ symBits) (2 ^ distBits)
                symRoot distRoot (8 * inbuf.length + ashDeclaredSize inbuf + 64)
                reader reader2 [] (ashDeclaredSize inbuf)
  else .error .headerOutOfBounds

/-! CLI surface of the two decoder tools. -/

/-- Magic check of the Decompressor's `main`:
`memcmp(magic, "ASH0", 4) == 0` on the first four bytes of the file. -/
def ashdecMagicOk (file : List Nat) : Bool :=
  file.take 4 == [0x41, 0x53, 0x48, 0x30]

/-- Magic check of the Extractor's `main`: `memcmp(magic, "ASH", 3)`
being zero, i.e. only the first three bytes are compared and the fourth
byte of the magic is ignored. -/
def extractorMagicOk (file : List Nat) : Bool :=
  file.take 3 == [0x41, 0x53, 0x48]

/-- Embeds C `atoi`: skip leading whitespace, optional sign, then the
longest prefix of decimal digits (0 when there is none). -/
def atoiDigits : List Char → Nat → Nat
  | [], acc => acc
  | c :: rest, acc =>
      if c.isDigit then atoiDigits rest (10 * acc + (c.toNat - 48)) else acc

def catoi (s : String) : Int :=
  match s.toList.dropWhile (fun c => c = ' ' || c = '\t' || c = '\n' || c = '\r') with
  | '-' :: rest => - Int.ofNat (atoiDigits rest 0)
  | '+' :: rest => Int.ofNat (atoiDigits rest 0)
  | l => Int.ofNat (atoiDigits l 0)

/-- Options of the decoder CLI tools (`outpath`, `nSymBits`, `nDistBits`;
the latter are C `int`s set by `atoi`). -/
structure CliOpts where
  outpath : Option String
  symBits : Int
  distBits : Int
deriving DecidableEq, Repr

/-- Argument loop of the Decompressor's `main` over `argv[2..]`:
`-o` takes the output path, `-d` sets `nDistBits`, `-l` sets `nSymBits`.
A flag in final position consumes no value and the loop ends. -/
def ashdecParseArgsGo : List String → CliOpts → CliOpts
  | [], o => o
  | a :: rest, o =>
      if a = "-o" then
        match rest with
        | [] => o
        | v :: rest' => ashdecParseArgsGo rest' { o with outpath := some v }
      else if a = "-d" then
        match rest with
        | [] => o
        | v :: rest' => ashdecParseArgsGo rest' { o with distBits := catoi v }
      else if a = "-l" then
        match rest with
        | [] => o
        | v :: rest' => ashdecParseArgsGo rest' { o with symBits := catoi v }
      else ashdecParseArgsGo rest o

/-- Decompressor argument parsing with its defaults
(`nSymBits = 9`, `nDistBits = 11`). -/
def ashdecParseArgs (args : List String) : CliOpts :=
  ashdecParseArgsGo args ⟨none, 9, 11⟩

/-- Argument loop of the Extractor's `main`.  Note the embedded faithful
detail of the source: the `-l` branch assigns `nDistBits = atoi(...)`
(not `nSymBits`), unlike the Decompressor. -/
def extractorParseArgsGo : List String → CliOpts → CliOpts
  | [], o => o
  | a :: rest, o =>
      if a = "-o" then
        match rest with
        | [] => o
        | v :: rest' => extractorParseArgsGo rest' { o with outpath := some v }
      else if a = "-d" then
        match rest with
        | [] => o
        | v :: rest' => extractorParseArgsGo rest' { o with distBits := catoi v }
      else if a = "-l" then
        match rest with
        | [] => o
        | v :: rest' => extractorParseArgsGo rest' { o with distBits := catoi v }
      else extractorParseArgsGo rest o

/-- Extractor argument parsing with its defaults
(`nSymBits = 9`, `nDistBits = 11`). -/
def extractorParseArgs (args : List String) : CliOpts :=
  extractorParseArgsGo args ⟨none, 9, 11⟩

deriving instance DecidableEq for Except

/-! Concrete inputs used by the evaluation theorems. -/

/-- The 28-byte buffer `aaaabbbbccccddddeeeeffffgggg`: seven runs of four
equal bytes.  The greedy parse emits seven literals and seven
`(length 3, distance 1)` references; all references share distance 1, so
after the ensure-elements guard the dist tree has exactly the two leaves
0 and 1 and the dist stream is `25 + 7 = 32` bits — one 32-bit word with
no slack bits. -/
def c1Input : List Nat :=
  List.replicate 4 0x61 ++ List.replicate 4 0x62 ++ List.replicate 4 0x63 ++
    List.replicate 4 0x64 ++ List.replicate 4 0x65 ++ List.replicate 4 0x66 ++
    List.replicate 4 0x67

/-- An encoder output used for truncation experiments: the compression of
the four bytes `aaaa` (20 bytes: 12-byte header, one sym word, one dist
word). -/
def c4Encoded : List Nat := cxCompressAsh [0x61, 0x61, 0x61, 0x61] 9 11 0

/-- A well-formed ASH0 file whose header declares uncompressed size 0:
magic, size word 0, dist-stream offset 16, one sym-stream word holding
the two-leaf sym tree (leaves `0x41`, `0x42`), and one dist-stream word
holding the two-leaf dist tree (leaves 0 and 1). -/
def c3ZeroInput : List Nat :=
  [0x41, 0x53, 0x48, 0x30, 0x00, 0x00, 0x00, 0x00, 0x00, 0x00, 0x00, 0x10,
   0x88, 0x22, 0x10, 0x00, 0x80, 0x00, 0x00, 0x80]

end Ash

namespace Ash

/-! Sanity check: the embedded encoder and decoder round-trip on a small
input (the decoder returns exactly the bytes the encoder was given). -/

theorem ash_roundtrip_small_example :
    cxUncompressAsh (cxCompressAsh [0x61, 0x61, 0x61, 0x61] 9 11 0) 9 11 =
      Except.ok [0x61, 0x61, 0x61, 0x61] := by decide

/-- C1: the round-trip property fails on the code as written.  For the
28-byte input `c1Input` (seven four-byte runs) with the claimed
parameters `(sym_bits, dist_bits) = (9, 11)` and `passes = 0`, the
encoder produces a complete 32-byte file whose distance bit stream is
exactly one 32-bit word; when the decoder consumes the final distance
bit, `CxBitReaderReadBit` eagerly refills past the end of the file and
the bounds assertion aborts with TruncatedInput instead of returning the
original bytes. -/
theorem c1_roundtrip_fails_on_word_aligned_dist_stream :
    (cxCompressAsh c1Input 9 11 0).length = 32 ∧
    cxUncompressAsh (cxCompressAsh c1Input 9 11 0) 9 11 =
      Except.error DErr.truncatedInput := by decide

/-- C8 counterexample: the Extractor variant accepts a file whose magic
is `ASH1`, whose first four bytes are not `ASH0`; the claim that every
decoder variant accepts only exact `ASH0` is false. -/
theorem c8_extractor_accepts_ash1 :
    extractorMagicOk [0x41, 0x53, 0x48, 0x31] = true ∧
    [0x41, 0x53, 0x48, 0x31].take 4 ≠ [0x41, 0x53, 0x48, 0x30] := by decide

/-- C8 (amended): the encoder always writes the magic `ASH0`; the
Decompressor accepts exactly the files whose first four bytes are
`ASH0`; the Extractor accepts exactly the files whose first three bytes
are `ASH`, ignoring the fourth byte. -/
theorem c8_magic_policy :
    (∀ buffer nSymBits nDstBits nPasses,
        (cxCompressAsh buffer nSymBits nDstBits nPasses).take 4 =
          [0x41, 0x53, 0x48, 0x30]) ∧
    (∀ file, ashdecMagicOk file = true ↔ file.take 4 = [0x41, 0x53, 0x48, 0x30]) ∧
    (∀ file, extractorMagicOk file = true ↔ file.take 3 = [0x41, 0x53, 0x48]) := by
  refine ⟨fun b s d p => rfl, fun f => ?_, fun f => ?_⟩
  · simp [ashdecMagicOk]
  · simp [extractorMagicOk]

/-- C9: in the Extractor variant the `-l` option does not set `sym_bits`:
its branch assigns `nDistBits` (a copy-paste slip contradicting the
tool's own usage text), so `ashdec file -l 15` leaves `sym_bits = 9` and
sets `dist_bits = 15` there, while the Decompressor variant sets
`sym_bits = 15` as documented; both share the defaults `(9, 11)`. -/
theorem c9_extractor_l_option_sets_distbits :
    extractorParseArgs ["-l", "15"] = ⟨none, 9, 15⟩ ∧
    ashdecParseArgs ["-l", "15"] = ⟨none, 15, 11⟩ ∧
    extractorParseArgs [] = ⟨none, 9, 11⟩ ∧
    ashdecParseArgs [] = ⟨none, 9, 11⟩ := by decide

/-- Membership is an upper bound for `cxiHuffmanHasSymbol`: whenever the
pruned search answers `true` the symbol really is a leaf of the tree. -/
theorem cxiHuffmanHasSymbol_mem :
    ∀ (t : HTree) (s : Nat), cxiHuffmanHasSymbol t s = true → s ∈ t.leavesOf := by
  intro t
  induction t with
  | leaf v f =>
      intro s h
      simp only [cxiHuffmanHasSymbol, beq_iff_eq] at h
      simp [HTree.leavesOf, h]
  | node fq mn mx nr l r ihl ihr =>
      intro s h
      simp only [cxiHuffmanHasSymbol] at h
      split at h
      · exact absurd h (by simp)
      · rcases Bool.or_eq_true_iff.mp h with h' | h'
        · exact List.mem_append_left _ (ihl s h')
        · exact List.mem_append_right _ (ihr s h')

/-- C10: `CxiHuffmanGetNodeDepth` returns 0 for any symbol that is not a
leaf of the tree (the `//!!!` fallback), and returns 0 on a single-leaf
tree regardless of the queried symbol; the retokenizer's literal cost
`cxiHuffmanGetNodeDepth symNodes (byteAt buffer pos)` (used in
`retokNodeFor` and `scanLengths`) is therefore 0 for any byte value
absent from the sym tree. -/
theorem c10_depth_of_absent_symbol_is_zero :
    (∀ (t : HTree) (s : Nat), s ∉ t.leavesOf → cxiHuffmanGetNodeDepth t s = 0) ∧
    (∀ v f s : Nat, cxiHuffmanGetNodeDepth (HTree.leaf v f) s = 0) := by
  constructor
  · intro t s hs
    cases t with
    | leaf v f => rfl
    | node fq mn mx nr l r =>
        have hl : ¬ cxiHuffmanHasSymbol l s = true := fun h =>
          hs (List.mem_append_left _ (cxiHuffmanHasSymbol_mem l s h))
        have hr : ¬ cxiHuffmanHasSymbol r s = true := fun h =>
          hs (List.mem_append_right _ (cxiHuffmanHasSymbol_mem r s h))
        simp [cxiHuffmanGetNodeDepth, hl, hr]
  · intro v f s
    rfl

/-- Witness for C10 at a concrete tree: symbol 5 lies in the stored range
of the root but is not a leaf, and a single-leaf tree answers 0 for a
foreign symbol. -/
theorem c10_depth_of_absent_symbol_is_zero_witness :
    cxiHuffmanGetNodeDepth
        (HTree.node 2 0 6 2 (HTree.leaf 0 1) (HTree.leaf 6 1)) 5 = 0 ∧
    cxiHuffmanGetNodeDepth (HTree.leaf 7 1) 9 = 0 :=
  ⟨c10_depth_of_absent_symbol_is_zero.1 _ 5 (by decide),
   c10_depth_of_absent_symbol_is_zero.2 7 1 9⟩

/-- C3 counterexample: on a well-formed file whose header declares
uncompressed size 0, the decoder does not produce the empty output with
no symbol decoded — its do-while loop body runs, decodes a literal, the
`u32` remaining counter wraps to `2^32 - 1`, and the run ends in the
TruncatedInput abort once the input bits are exhausted. -/
theorem c3_zero_declared_size_counterexample :
    ashDeclaredSize c3ZeroInput = 0 ∧
    cxUncompressAsh c3ZeroInput 9 11 ≠ Except.ok [] ∧
    cxUncompressAsh c3ZeroInput 9 11 = Except.error DErr.truncatedInput := by decide

/-- Length of the byte-at-a-time copy: exactly `n` bytes are appended. -/
theorem lzCopy_length (d : Nat) :
    ∀ (n : Nat) (revOut : List Nat), (lzCopy d n revOut).length = n + revOut.length := by
  intro n
  induction n with
  | zero => intro revOut; simp [lzCopy]
  | succ m ih => intro revOut; simp [lzCopy, ih]; omega

/-- Main-loop invariant for C3: when the declared count is still positive
the `u32` decrement cannot wrap, every successful macro-step adds exactly
as many bytes as it subtracts from the count, and the loop returns
exactly when the count reaches 0; so a successful run started with
`remaining ≥ 1` returns `revOut.length + remaining` bytes. -/
theorem cxUncompressAshGo_ok_length (symLt symRt distLt distRt : ChildArr)
    (symMax distMax symRoot distRoot : Nat) :
    ∀ (fuel : Nat) (reader reader2 : BitReader) (revOut : List Nat)
      (remaining : Nat) (out : List Nat),
      1 ≤ remaining → remaining < 2 ^ 32 →
      cxUncompressAshGo symLt symRt distLt distRt symMax distMax symRoot distRoot
        fuel reader reader2 revOut remaining = .ok out →
      out.length = revOut.length + remaining := by
  intro fuel
  induction fuel with
  | zero =>
      intro r r2 rv rem out h1 h2 h
      simp [cxUncompressAshGo] at h
  | succ n ih =>
      intro r r2 rv rem out h1 h2 h
      rw [cxUncompressAshGo] at h
      split at h
      · exact absurd h (by simp)
      case _ sym r2' heq =>
        split at h
        · -- literal path
          have hw : (rem + 2 ^ 32 - 1) % 2 ^ 32 = rem - 1 := by omega
          rw [hw] at h
          split at h
          · have := ih r r2' (sym :: rv) (rem - 1) out (by omega) (by omega) h
            simp only [List.length_cons] at this
            omega
          · simp only [Except.ok.injEq] at h
            subst h
            simp only [List.length_reverse, List.length_cons]
            omega
        · -- reference path
          split at h
          · exact absurd h (by simp)
          case _ distsym r' heq2 =>
            split at h
            · split at h
              · split at h
                · have := ih r' r2' (lzCopy distsym (sym - 0x100 + 3) rv)
                    (rem - (sym - 0x100 + 3)) out (by omega) (by omega) h
                  rw [lzCopy_length] at this
                  omega
                · simp only [Except.ok.injEq] at h
                  subst h
                  simp only [List.length_reverse]
                  rw [lzCopy_length]
                  omega
              · exact absurd h (by simp)
            · exact absurd h (by simp)

/-- C3 (amended): for every input whose header declares a nonzero
uncompressed size `u`, a successful decode returns exactly `u` bytes,
the loop terminating exactly when the remaining count reaches 0.  (The
claim's `u = 0` sub-case is false — see the counterexample: the do-while
loop still decodes a symbol and the count wraps.) -/
theorem c3_successful_decode_length (inbuf : List Nat) (symBits distBits : Nat)
    (out : List Nat) (h1 : 1 ≤ ashDeclaredSize inbuf)
    (h2 : cxUncompressAsh inbuf symBits distBits = .ok out) :
    out.length = ashDeclaredSize inbuf := by
  rw [cxUncompressAsh] at h2
  split at h2
  · split at h2
    · exact absurd h2 (by simp)
    · split at h2
      · exact absurd h2 (by simp)
      · split at h2
        · exact absurd h2 (by simp)
        · split at h2
          · exact absurd h2 (by simp)
          · have hlt : ashDeclaredSize inbuf < 2 ^ 32 := by
              have := Nat.mod_lt (be32At inbuf 4) (show 0 < 2 ^ 24 by norm_num)
              unfold ashDeclaredSize
              omega
            have := cxUncompressAshGo_ok_length _ _ _ _ _ _ _ _ _ _ _ _ _ _
              h1 hlt h2
            simpa using this
  · exact absurd h2 (by simp)

/-- Witness for C3 at a concrete successful decode: the compression of
`aaaa` declares size 4 and decoding it yields a 4-byte output. -/
theorem c3_successful_decode_length_witness :
    [(0x61 : Nat), 0x61, 0x61, 0x61].length =
      ashDeclaredSize (cxCompressAsh [0x61, 0x61, 0x61, 0x61] 9 11 0) :=
  c3_successful_decode_length _ 9 11 _ (by decide) (by decide)

/-- C4 counterexample: truncating a valid stream below the 12-byte header
does not produce the TruncatedInput report — the decoder's unchecked
header reads (`inbuf + 4`, `inbuf + 8`) run out of bounds first (heap
over-read in C, `headerOutOfBounds` in the model). -/
theorem c4_short_truncation_counterexample :
    cxUncompressAsh (c4Encoded.take 8) 9 11 ≠ Except.error DErr.truncatedInput ∧
    cxUncompressAsh (c4Encoded.take 8) 9 11 = Except.error DErr.headerOutOfBounds := by
  decide

/-- C4 (amended): any `CxBitReaderFeedWord` refill that would cross the
end of the input fails with TruncatedInput; consequently truncations of
a valid encoded stream that keep at least the 12-byte header make the
decoder report TruncatedInput (shown here for every such truncation of
the 20-byte compression of `aaaa`), while truncations below 12 bytes hit
the unchecked header reads instead. -/
theorem c4_refill_past_end_is_truncated_input :
    (∀ r : BitReader, r.size < r.srcpos + 4 →
        cxBitReaderFeedWord r = Except.error DErr.truncatedInput) ∧
    (∀ k, 12 ≤ k → k < c4Encoded.length →
        cxUncompressAsh (c4Encoded.take k) 9 11 = Except.error DErr.truncatedInput) := by
  constructor
  · intro r h
    rw [cxBitReaderFeedWord, if_neg (by omega)]
  · intro k h1 h2
    have h20 : c4Encoded.length = 20 := by decide
    rw [h20] at h2
    interval_cases k <;> decide

/-- Witness for C4: a refill on an empty reader fails, and the 12-byte
truncation of the `aaaa` stream reports TruncatedInput. -/
theorem c4_refill_past_end_is_truncated_input_witness :
    cxBitReaderFeedWord ⟨[], 0, 0, 0, 0⟩ = Except.error DErr.truncatedInput ∧
    cxUncompressAsh (c4Encoded.take 12) 9 11 = Except.error DErr.truncatedInput :=
  ⟨c4_refill_past_end_is_truncated_input.1 _ (by decide),
   c4_refill_past_end_is_truncated_input.2 12 (by decide) (by decide)⟩

/-! Lemmas about the emitted byte streams, for the header invariants. -/

theorem bytesOfBitsGo_length : ∀ (n : Nat) (bits : List Bool),
    (bytesOfBitsGo n bits).length = n := by
  intro n
  induction n with
  | zero => intro bits; rfl
  | succ m ih => intro bits; simp [bytesOfBitsGo, ih]

theorem cxiBitStreamGetBytes_length (bits : List Bool) :
    (cxiBitStreamGetBytes bits).length = (bits.length + 31) / 32 * 4 := by
  simp [cxiBitStreamGetBytes, bytesOfBitsGo_length]

theorem cxiAshWriteTree_length_pos (t : HTree) (nBits : Nat) :
    1 ≤ (cxiAshWriteTree t nBits).length := by
  cases t <;> simp [cxiAshWriteTree]

theorem ashSymStream_length_pos (buffer : List Nat) (nSymBits nDstBits nPasses : Nat) :
    1 ≤ (ashSymStream buffer nSymBits nDstBits nPasses).length := by
  rw [ashSymStream]
  simp only [List.length_append]
  have := cxiAshWriteTree_length_pos
    (ashFinalState buffer nSymBits nDstBits nPasses).2.1 nSymBits
  omega

theorem ashDstStream_length_pos (buffer : List Nat) (nSymBits nDstBits nPasses : Nat) :
    1 ≤ (ashDstStream buffer nSymBits nDstBits nPasses).length := by
  rw [ashDstStream]
  simp only [List.length_append]
  have := cxiAshWriteTree_length_pos
    (ashFinalState buffer nSymBits nDstBits nPasses).2.2 nDstBits
  omega

theorem be32At_cons4_at4 (a b c d : Nat) (rest : List Nat) :
    be32At (a :: b :: c :: d :: rest) 4 = be32At rest 0 := by
  simp [be32At, byteAt]

theorem be32At_cons4_at8 (a b c d : Nat) (rest : List Nat) :
    be32At (a :: b :: c :: d :: rest) 8 = be32At rest 4 := by
  simp [be32At, byteAt]

theorem be32At_be32Bytes (v : Nat) (rest : List Nat) (h : v < 2 ^ 32) :
    be32At (be32Bytes v ++ rest) 0 = v := by
  simp [be32At, be32Bytes, byteAt]
  omega

/-- C2: every encoder output starts with the four ASCII bytes `ASH0`; the
big-endian word at offset 4, taken modulo `2^24` (which is what the
decoder reads back as `ashDeclaredSize`), equals the input length; and
the big-endian dist-stream offset at offset 8 is at least 12, 4-byte
aligned, and lies strictly inside the produced file.  The size
hypotheses are the encoder's operating range: the input respects the
24-bit size cap and the produced file fits 32-bit arithmetic. -/
theorem c2_header_invariants (buffer : List Nat) (nSymBits nDstBits nPasses : Nat)
    (hsize : buffer.length ≤ 0xFFFFFF)
    (hfile : (cxCompressAsh buffer nSymBits nDstBits nPasses).length < 2 ^ 32) :
    (cxCompressAsh buffer nSymBits nDstBits nPasses).take 4 = [0x41, 0x53, 0x48, 0x30] ∧
    ashDeclaredSize (cxCompressAsh buffer nSymBits nDstBits nPasses) = buffer.length ∧
    12 ≤ be32At (cxCompressAsh buffer nSymBits nDstBits nPasses) 8 ∧
    be32At (cxCompressAsh buffer nSymBits nDstBits nPasses) 8 % 4 = 0 ∧
    be32At (cxCompressAsh buffer nSymBits nDstBits nPasses) 8 <
      (cxCompressAsh buffer nSymBits nDstBits nPasses).length := by
  obtain ⟨sB, dB, hout, hs4, hsmod, hd4⟩ :
      ∃ sB dB : List Nat,
        cxCompressAsh buffer nSymBits nDstBits nPasses =
          [0x41, 0x53, 0x48, 0x30] ++ be32Bytes (buffer.length % 2 ^ 32) ++
            be32Bytes ((0xC + sB.length) % 2 ^ 32) ++ sB ++ dB ∧
        4 ≤ sB.length ∧ sB.length % 4 = 0 ∧ 4 ≤ dB.length := by
    refine ⟨_, _, rfl, ?_, ?_, ?_⟩
    · rw [cxiBitStreamGetBytes_length]
      have := ashSymStream_length_pos buffer nSymBits nDstBits nPasses
      omega
    · rw [cxiBitStreamGetBytes_length]
      omega
    · rw [cxiBitStreamGetBytes_length]
      have := ashDstStream_length_pos buffer nSymBits nDstBits nPasses
      omega
  have hlen : (cxCompressAsh buffer nSymBits nDstBits nPasses).length =
      12 + sB.length + dB.length := by
    rw [hout]
    simp [be32Bytes]
    omega
  have h32 : 0xC + sB.length < 2 ^ 32 := by
    rw [hlen] at hfile
    omega
  have hsz32 : buffer.length % 2 ^ 32 = buffer.length := by omega
  have hofrd : be32At (cxCompressAsh buffer nSymBits nDstBits nPasses) 8 =
      0xC + sB.length := by
    rw [hout]
    simp only [List.cons_append, List.nil_append]
    rw [be32At_cons4_at8]
    rw [show (be32Bytes (buffer.length % 2 ^ 32)) =
      (buffer.length % 2 ^ 32) / 2 ^ 24 % 256 :: (buffer.length % 2 ^ 32) / 2 ^ 16 % 256 ::
        (buffer.length % 2 ^ 32) / 2 ^ 8 % 256 :: [(buffer.length % 2 ^ 32) % 256] from rfl]
    simp only [List.cons_append, List.nil_append]
    rw [be32At_cons4_at4, List.append_assoc]
    rw [be32At_be32Bytes ((0xC + sB.length) % 2 ^ 32) (sB ++ dB)
      (Nat.mod_lt _ (by norm_num))]
    omega
  refine ⟨?_, ?_, ?_, ?_, ?_⟩
  · rw [hout]; rfl
  · rw [ashDeclaredSize, hout]
    simp only [List.cons_append, List.nil_append]
    rw [be32At_cons4_at4, hsz32]
    simp only [List.append_assoc]
    rw [be32At_be32Bytes buffer.length _ (by omega)]
    omega
  · omega
  · omega
  · rw [hofrd, hlen]; omega

/-! Lemmas for the ensure-elements guard (C6) and the Huffman builder
invariants (C5): the balanced enumeration of used symbols equals the
ascending filter of the index range. -/

theorem presentSymsGo_eq_filter (h : Hist) :
    ∀ (fuel lo len : Nat), len ≤ fuel →
      presentSymsGo h lo len fuel = (List.range' lo len).filter (fun i => h i != 0) := by
  intro fuel
  induction fuel with
  | zero =>
      intro lo len hl
      have : len = 0 := by omega
      subst this
      rfl
  | succ m ih =>
      intro lo len hl
      rw [presentSymsGo]
      split
      case _ h0 => subst h0; rfl
      case _ h0 =>
        split
        case _ h1 =>
          subst h1
          rw [List.range'_one]
          cases hb : h lo != 0 <;> simp [List.filter, hb]
        case _ h1 =>
          rw [ih lo (len / 2) (by omega), ih (lo + len / 2) (len - len / 2) (by omega)]
          rw [← List.filter_append]
          have hr := List.range'_append lo (len / 2) (len - len / 2) 1
          rw [one_mul] at hr
          have hsum : len - len / 2 + len / 2 = len := by omega
          rw [hsum] at hr
          rw [hr]

theorem presentSyms_eq_filter (h : Hist) (n : Nat) :
    presentSyms h n = (List.range n).filter (fun i => h i != 0) := by
  rw [presentSyms, presentSymsGo_eq_filter h n 0 n le_rfl, List.range_eq_range']

theorem countPresent_eq (h : Hist) (n : Nat) :
    countPresent h n = ((List.range n).filter (fun i => h i != 0)).length := by
  rw [countPresent, presentSyms_eq_filter]

/-- The scanning loop collects exactly the first `minN - cnt` zero cells
of the range it walks. -/
theorem promotedIdxs_eq_take (h : Hist) (minN : Nat) :
    ∀ (fuel i cnt : Nat), cnt < minN →
      promotedIdxs h minN i fuel cnt =
        ((List.range' i fuel).filter (fun j => h j == 0)).take (minN - cnt) := by
  intro fuel
  induction fuel with
  | zero => intro i cnt hc; simp [promotedIdxs]
  | succ m ih =>
      intro i cnt hc
      rw [promotedIdxs, List.range'_succ]
      simp only [List.filter_cons]
      by_cases h0 : h i = 0
      · rw [if_pos h0, if_pos (show (h i == 0) = true by simp [h0])]
        by_cases hc2 : cnt + 1 ≥ minN
        · rw [if_pos hc2]
          have h1 : minN - cnt = 1 := by omega
          rw [h1]
          simp
        · rw [if_neg hc2]
          have h1 : minN - cnt = (minN - (cnt + 1)) + 1 := by omega
          rw [h1, List.take_succ_cons, ih (i + 1) (cnt + 1) (by omega)]
      · rw [if_neg h0, if_neg (show ¬ (h i == 0) = true by simp [h0]),
          ih (i + 1) cnt hc]

/-- C6: the embedded `CxiAshEnsureTreeElements` agrees pointwise with the
spec's description (promote the first `2 - present` zero-frequency
symbols in ascending order); a histogram that already has at least two
present symbols is returned unchanged; and on an alphabet of at least
two symbols the guard leaves at least two symbols present. -/
theorem c6_ensure_tree_elements (h : Hist) (n : Nat) :
    (∀ j, cxiAshEnsureTreeElements h n 2 j = ensureElementsSpec h n 2 j) ∧
    (2 ≤ countPresent h n → ∀ j, cxiAshEnsureTreeElements h n 2 j = h j) ∧
    (2 ≤ n → 2 ≤ countPresent (cxiAshEnsureTreeElements h n 2) n) := by
  have hmain : ∀ j, cxiAshEnsureTreeElements h n 2 j = ensureElementsSpec h n 2 j := by
    intro j
    rw [cxiAshEnsureTreeElements, ensureElementsSpec, countPresent_eq]
    split
    · rfl
    case _ hcnt =>
      rw [promotedIdxs_eq_take h 2 n 0 _ (by omega), ← List.range_eq_range']
  refine ⟨hmain, ?_, ?_⟩
  · intro hge j
    rw [cxiAshEnsureTreeElements, if_pos hge]
  · intro hn
    by_cases hge : 2 ≤ countPresent h n
    · have : cxiAshEnsureTreeElements h n 2 = h := by
        rw [cxiAshEnsureTreeElements, if_pos hge]
      rw [this]
      exact hge
    · -- fewer than two present: the guard promotes 2 - cnt zeros
      have hcongr : countPresent (cxiAshEnsureTreeElements h n 2) n =
          ((List.range n).filter (fun i => ensureElementsSpec h n 2 i != 0)).length := by
        rw [countPresent_eq]
        congr 1
        exact List.filter_congr (fun j _ => by rw [hmain j])
      rw [hcongr]
      rw [countPresent_eq] at hge
      set cnt := ((List.range n).filter (fun i => h i != 0)).length with hcnt
      set zeros := (List.range n).filter (fun i => h i == 0) with hzeros
      set promoted := zeros.take (2 - cnt) with hprom
      have hspec : ∀ i, ensureElementsSpec h n 2 i =
          if promoted.contains i then 1 else h i := by
        intro i
        rw [ensureElementsSpec, if_neg hge]
      have hzlen : cnt + zeros.length = n := by
        have hpart := @List.length_eq_length_filter_add Nat (List.range n)
          (fun i => h i != 0)
        simp only [] at hpart
        rw [List.length_range] at hpart
        have hzc : (List.range n).filter (fun i => !(h i != 0)) = zeros := by
          rw [hzeros]
          apply List.filter_congr
          intro j _
          cases hb : h j == 0 <;> simp [bne, hb]
        rw [hcnt, ← hzc]
        omega
      have hplen : promoted.length = 2 - cnt := by
        rw [hprom, List.length_take]
        omega
      have hpnodup : promoted.Nodup :=
        (List.take_sublist _ _).nodup (List.Nodup.filter _ (List.nodup_range n))
      -- split the present count of the promoted histogram
      have hsplit : ∀ l : List Nat,
          (l.filter (fun i => ensureElementsSpec h n 2 i != 0)).length =
            (l.filter (fun i => h i != 0)).length +
              (l.filter (fun i => promoted.contains i)).length := by
        intro l
        induction l with
        | nil => rfl
        | cons a t iht =>
            simp only [List.filter_cons]
            by_cases hpa : promoted.contains a = true
            · have hmem : a ∈ promoted := List.elem_iff.mp hpa
              have hz : h a = 0 := by
                have : a ∈ zeros := List.mem_of_mem_take hmem
                have := (List.mem_filter.mp this).2
                simpa using this
              rw [if_pos (show (ensureElementsSpec h n 2 a != 0) = true by
                    simp [hspec a, hmem]),
                if_neg (show ¬ (h a != 0) = true by simp [hz]),
                if_pos hpa]
              simp only [List.length_cons, iht]
              omega
            · have hmem : ¬ a ∈ promoted := fun hx => hpa (List.elem_iff.mpr hx)
              rw [if_neg (show ¬ (promoted.contains a) = true by exact hpa)]
              have e3 : (ensureElementsSpec h n 2 a != 0) = (h a != 0) := by
                simp [hspec a, hmem]
              by_cases ha : (h a != 0) = true
              · rw [if_pos (show (ensureElementsSpec h n 2 a != 0) = true by
                    rw [e3]; exact ha), if_pos ha]
                simp only [List.length_cons, iht]
                omega
              · rw [if_neg (show ¬ (ensureElementsSpec h n 2 a != 0) = true by
                    rw [e3]; exact ha), if_neg ha]
                exact iht
      rw [hsplit]
      -- the promoted cells all lie below n, so they are all counted
      have hsub : promoted ⊆ (List.range n).filter (fun i => promoted.contains i) := by
        intro x hx
        refine List.mem_filter.mpr ⟨?_, by simpa using List.elem_iff.mpr hx⟩
        have : x ∈ zeros := List.mem_of_mem_take hx
        exact (List.mem_filter.mp this).1
      have := (hpnodup.subperm hsub).length_le
      omega

/-- Witness for C6 at concrete histograms: one with a single present
symbol (promotion promotes symbol 0 and leaves two present) and one with
two present symbols (unchanged). -/
theorem c6_ensure_tree_elements_witness :
    cxiAshEnsureTreeElements (fun i => [0, 7, 0, 0].getD i 0) 4 2 0 =
      ensureElementsSpec (fun i => [0, 7, 0, 0].getD i 0) 4 2 0 ∧
    cxiAshEnsureTreeElements (fun i => [3, 0, 5, 0].getD i 0) 4 2 1 =
      (fun i => [3, 0, 5, 0].getD i 0) 1 ∧
    2 ≤ countPresent (cxiAshEnsureTreeElements (fun i => [0, 7, 0, 0].getD i 0) 4 2) 4 :=
  ⟨(c6_ensure_tree_elements (fun i => [0, 7, 0, 0].getD i 0) 4).1 0,
   (c6_ensure_tree_elements (fun i => [3, 0, 5, 0].getD i 0) 4).2.1 (by decide) 1,
   (c6_ensure_tree_elements (fun i => [0, 7, 0, 0].getD i 0) 4).2.2 (by decide)⟩

/-! Lemmas for C7: on a constant buffer the greedy tokenizer's first two
tokens are the leading literal and an overlapped reference. -/

theorem byteAt_replicate (b : Nat) :
    ∀ (n i : Nat), i < n → byteAt (List.replicate n b) i = b := by
  intro n
  induction n with
  | zero => intro i h; omega
  | succ m ih =>
      intro i h
      cases i with
      | zero => rfl
      | succ j =>
          rw [List.replicate_succ, byteAt, List.getD_cons_succ]
          exact ih j (by omega)

theorem cmpLinear_replicate (b : Nat) :
    ∀ (k p q : Nat),
      cmpLinear (List.replicate p b) (List.replicate q b) k = min k (min p q) := by
  intro k
  induction k with
  | zero => intro p q; simp [cmpLinear]
  | succ m ih =>
      intro p q
      cases p with
      | zero => simp [cmpLinear]
      | succ p' =>
          cases q with
          | zero => simp [cmpLinear]
          | succ q' =>
              rw [List.replicate_succ, List.replicate_succ]
              simp [cmpLinear, ih p' q']
              omega

/-- The clamp `nMax := min nMax nAbsoluteMax` makes the first branch of
`CxiCompareMemory` unconditional: the function is the plain linear
compare of up to `nAbsoluteMax` bytes. -/
theorem cxiCompareMemory_eq_cmpLinear (b1 b2 : List Nat) (nMax nAbs : Nat) :
    cxiCompareMemory b1 b2 nMax nAbs = cmpLinear b1 b2 nAbs := by
  rw [cxiCompareMemory]
  exact if_pos (by split <;> omega)

/-- `CxiSearchLZ` at position 0: no distance is admissible, so the search
reports no match. -/
theorem cxiSearchLZ_at_zero (buffer : List Nat) (size maxDistance maxLength : Nat) :
    cxiSearchLZ buffer size 0 1 maxDistance maxLength = (0, 0) := by
  rw [cxiSearchLZ]
  simp only [Nat.min_zero]
  rfl

/-- `CxiSearchLZ` at position 1 of a constant buffer: only distance 1 is
reachable, and the whole compare window matches, so the search returns
the window cap with distance 1 (and takes the early exit). -/
theorem cxiSearchLZ_at_one_replicate (b n maxDistance maxLength : Nat)
    (hn : 2 ≤ n) (hd : 1 ≤ maxDistance) (hl : 1 ≤ maxLength) :
    cxiSearchLZ (List.replicate n b) n 1 1 maxDistance maxLength =
      (min maxLength (n - 1), 1) := by
  rw [cxiSearchLZ]
  have hmd : min maxDistance 1 = 1 := by omega
  rw [hmd, cxiSearchLZGo]
  rw [if_neg (by omega)]
  have hm : searchStepCompare (List.replicate n b) 1 (min maxLength (n - 1)) maxLength 1 =
      min maxLength (n - 1) := by
    rw [searchStepCompare, cxiCompareMemory_eq_cmpLinear]
    rw [show (1 : Nat) - 1 = 0 from rfl, List.drop_zero, List.drop_replicate]
    rw [cmpLinear_replicate]
    omega
  rw [hm]
  rw [if_pos (by omega)]
  rw [if_pos rfl]

/-- On a constant buffer of at least four bytes the greedy parse begins
with the literal for the first byte followed by an overlapped reference
of length `min 258 (n - 1)` at distance 1. -/
theorem cxiAshTokenize_replicate (b n : Nat) (h4 : 4 ≤ n) :
    ∃ rest, cxiAshTokenize (List.replicate n b) 9 11 =
      LzTok.lit b :: LzTok.ref (min 258 (n - 1)) 1 :: rest := by
  obtain ⟨m, rfl⟩ : ∃ m, n = m + 4 := ⟨n - 4, by omega⟩
  rw [cxiAshTokenize, List.length_replicate]
  rw [show m + 4 = (m + 3) + 1 from rfl, cxiAshTokenizeGo]
  rw [if_pos (by omega)]
  rw [cxiSearchLZ_at_zero]
  rw [if_neg (by omega)]
  rw [byteAt_replicate b (m + 3 + 1) 0 (by omega)]
  rw [show m + 3 = (m + 2) + 1 from rfl, cxiAshTokenizeGo]
  rw [if_pos (by omega)]
  rw [show ashMaxLength 9 = 258 from rfl]
  rw [cxiSearchLZ_at_one_replicate b (m + 2 + 1 + 1) (2 ^ 11) 258 (by omega)
    (by norm_num) (by norm_num)]
  rw [if_pos (show ((min 258 (m + 2 + 1 + 1 - 1), 1) : Nat × Nat).1 ≥ 3 by
    show (3 : Nat) ≤ min 258 (m + 2 + 1 + 1 - 1)
    omega)]
  exact ⟨_, rfl⟩

/-- C7 counterexample: the two-byte input `0xAA 0xAA` is a single byte
value repeated, yet the greedy parse emits two literals and no reference
at all (a match of length at most 1 is below the minimum reference
length 3), so the claim quantified over every repeated-byte input is
false. -/
theorem c7_two_byte_run_has_no_reference :
    cxiAshTokenize [0xAA, 0xAA] 9 11 = [LzTok.lit 0xAA, LzTok.lit 0xAA] := by decide

/-- C7 (amended): for a single byte value repeated `n ≥ 4` times the
encoder's parse contains a reference whose length exceeds its distance
(an overlapped match — in fact the second token, with distance 1), and
on the 1 KiB `0xAA` example the decoder reproduces the input exactly
through the byte-at-a-time copy. -/
theorem c7_overlapped_match_roundtrip :
    (∀ b n, 4 ≤ n → ∃ t ∈ cxiAshTokenize (List.replicate n b) 9 11,
        t.isRef = true ∧ t.distanceOf < t.lengthOf) ∧
    cxUncompressAsh (cxCompressAsh (List.replicate 1024 0xAA) 9 11 0) 9 11 =
      Except.ok (List.replicate 1024 0xAA) := by
  constructor
  · intro b n h4
    obtain ⟨rest, hrest⟩ := cxiAshTokenize_replicate b n h4
    refine ⟨LzTok.ref (min 258 (n - 1)) 1, ?_, rfl, ?_⟩
    · rw [hrest]
      exact List.mem_cons_of_mem _ (List.mem_cons_self _ _)
    · simp only [LzTok.distanceOf, LzTok.lengthOf]
      omega
  · decide

/-- Witness for C7's quantified part at `n = 4`, `b = 0xAA`. -/
theorem c7_overlapped_match_roundtrip_witness :
    4 ≤ 4 ∧ ∃ t ∈ cxiAshTokenize (List.replicate 4 0xAA) 9 11,
      t.isRef = true ∧ t.distanceOf < t.lengthOf :=
  ⟨by decide, c7_overlapped_match_roundtrip.1 0xAA 4 (by decide)⟩

/-- The shallow-first pass never changes the stored representation count. -/
theorem nRepOf_makeShallowFirst (t : HTree) :
    (cxiHuffmanMakeShallowFirst t).nRepOf = t.nRepOf := by
  cases t with
  | leaf s f => rfl
  | node f mn mx nr l r =>
      rw [cxiHuffmanMakeShallowFirst]
      split <;> rfl

/-- The shallow-first pass permutes sibling subtrees, so the multiset of
leaf symbols is preserved. -/
theorem leavesOf_makeShallowFirst (t : HTree) :
    (cxiHuffmanMakeShallowFirst t).leavesOf.Perm t.leavesOf := by
  induction t with
  | leaf s f => exact List.Perm.refl _
  | node f mn mx nr l r ihl ihr =>
      rw [cxiHuffmanMakeShallowFirst]
      split
      · simp only [HTree.leavesOf]
        exact (ihr.append ihl).trans List.perm_append_comm
      · simp only [HTree.leavesOf]
        exact ihl.append ihr

/-- After `CxiHuffmanMakeShallowFirst`, every internal node satisfies
`left.nRepresent ≤ right.nRepresent`. -/
theorem shallowFirstOrdered_makeShallowFirst (t : HTree) :
    shallowFirstOrdered (cxiHuffmanMakeShallowFirst t) = true := by
  induction t with
  | leaf s f => rfl
  | node f mn mx nr l r ihl ihr =>
      rw [cxiHuffmanMakeShallowFirst]
      split
      · rename_i hgt
        simp only [shallowFirstOrdered, Bool.and_eq_true, decide_eq_true_eq,
          nRepOf_makeShallowFirst]
        refine ⟨⟨?_, ihr⟩, ihl⟩
        omega
      · rename_i hle
        simp only [shallowFirstOrdered, Bool.and_eq_true, decide_eq_true_eq,
          nRepOf_makeShallowFirst]
        refine ⟨⟨?_, ihl⟩, ihr⟩
        omega

/-- A range-consistent tree has its stored bounds attained by leaves and
bounding all leaves. -/
theorem rangeConsistent_bounds {t : HTree} (h : rangeConsistent t = true) :
    (∀ s ∈ t.leavesOf, t.symMinOf ≤ s ∧ s ≤ t.symMaxOf) ∧
      t.symMinOf ∈ t.leavesOf ∧ t.symMaxOf ∈ t.leavesOf := by
  cases t with
  | leaf s f =>
      refine ⟨?_, ?_, ?_⟩
      · intro x hx
        simp only [HTree.leavesOf, List.mem_singleton] at hx
        subst hx
        exact ⟨Nat.le_refl _, Nat.le_refl _⟩
      · simp [HTree.leavesOf, HTree.symMinOf]
      · simp [HTree.leavesOf, HTree.symMaxOf]
  | node f mn mx nr l r =>
      simp only [rangeConsistent, Bool.and_eq_true, List.all_eq_true,
        decide_eq_true_eq] at h
      obtain ⟨⟨⟨⟨hb, hmn⟩, hmx⟩, _⟩, _⟩ := h
      refine ⟨?_, ?_, ?_⟩
      · intro s hs
        simp only [HTree.leavesOf] at hs
        have hbs := hb s hs
        simpa [HTree.symMinOf, HTree.symMaxOf] using hbs
      · simpa only [HTree.leavesOf, HTree.symMinOf] using hmn
      · simpa only [HTree.leavesOf, HTree.symMaxOf] using hmx

/-- Merging two range-consistent roots with `mkBranch` (the `branch->…`
assignments of `CxiHuffmanConstructTree`) yields a range-consistent node. -/
theorem rangeConsistent_mkBranch {l r : HTree} (hl : rangeConsistent l = true)
    (hr : rangeConsistent r = true) : rangeConsistent (mkBranch l r) = true := by
  obtain ⟨hbl, hmnl, hmxl⟩ := rangeConsistent_bounds hl
  obtain ⟨hbr, hmnr, hmxr⟩ := rangeConsistent_bounds hr
  rw [mkBranch]
  simp only [rangeConsistent, Bool.and_eq_true, List.all_eq_true, decide_eq_true_eq]
  refine ⟨⟨⟨⟨?_, ?_⟩, ?_⟩, hl⟩, hr⟩
  · intro s hs
    rcases List.mem_append.mp hs with hm | hm
    · have hsb := hbl s hm
      exact ⟨Nat.le_trans (Nat.min_le_left _ _) hsb.1,
        Nat.le_trans hsb.2 (Nat.le_max_right _ _)⟩
    · have hsb := hbr s hm
      exact ⟨Nat.le_trans (Nat.min_le_right _ _) hsb.1,
        Nat.le_trans hsb.2 (Nat.le_max_left _ _)⟩
  · rcases le_total l.symMinOf r.symMinOf with hc | hc
    · rw [min_eq_left hc]
      exact List.mem_append_left _ hmnl
    · rw [min_eq_right hc]
      exact List.mem_append_right _ hmnr
  · rcases le_total l.symMaxOf r.symMaxOf with hc | hc
    · rw [max_eq_left hc]
      exact List.mem_append_right _ hmxr
    · rw [max_eq_right hc]
      exact List.mem_append_left _ hmxl

/-- The shallow-first pass preserves range consistency: swapping children
changes neither the stored bounds nor the subtree's leaf set. -/
theorem rangeConsistent_makeShallowFirst : ∀ {t : HTree}, rangeConsistent t = true →
    rangeConsistent (cxiHuffmanMakeShallowFirst t) = true := by
  intro t
  induction t with
  | leaf s f => intro _; rfl
  | node f mn mx nr l r ihl ihr =>
      intro h
      simp only [rangeConsistent, Bool.and_eq_true, List.all_eq_true,
        decide_eq_true_eq] at h
      obtain ⟨⟨⟨⟨hb, hmn⟩, hmx⟩, hcl⟩, hcr⟩ := h
      rw [cxiHuffmanMakeShallowFirst]
      split
      · have hperm : ((cxiHuffmanMakeShallowFirst r).leavesOf ++
            (cxiHuffmanMakeShallowFirst l).leavesOf).Perm (l.leavesOf ++ r.leavesOf) :=
          ((leavesOf_makeShallowFirst r).append (leavesOf_makeShallowFirst l)).trans
            List.perm_append_comm
        simp only [rangeConsistent, Bool.and_eq_true, List.all_eq_true,
          decide_eq_true_eq]
        refine ⟨⟨⟨⟨?_, ?_⟩, ?_⟩, ihr hcr⟩, ihl hcl⟩
        · intro s hs
          exact hb s (hperm.mem_iff.mp hs)
        · exact hperm.mem_iff.mpr hmn
        · exact hperm.mem_iff.mpr hmx
      · have hperm : ((cxiHuffmanMakeShallowFirst l).leavesOf ++
            (cxiHuffmanMakeShallowFirst r).leavesOf).Perm (l.leavesOf ++ r.leavesOf) :=
          (leavesOf_makeShallowFirst l).append (leavesOf_makeShallowFirst r)
        simp only [rangeConsistent, Bool.and_eq_true, List.all_eq_true,
          decide_eq_true_eq]
        refine ⟨⟨⟨⟨?_, ?_⟩, ?_⟩, ihl hcl⟩, ihr hcr⟩
        · intro s hs
          exact hb s (hperm.mem_iff.mp hs)
        · exact hperm.mem_iff.mpr hmn
        · exact hperm.mem_iff.mpr hmx

/-- If all leaf symbols of a tree are pairwise distinct, then at every
internal node the leaf-symbol sets of the two children are disjoint. -/
theorem childLeavesDisjoint_of_nodup : ∀ {t : HTree}, t.leavesOf.Nodup →
    childLeavesDisjoint t = true := by
  intro t
  induction t with
  | leaf s f => intro _; rfl
  | node f mn mx nr l r ihl ihr =>
      intro hnd
      simp only [HTree.leavesOf] at hnd
      rw [List.nodup_append] at hnd
      obtain ⟨hl, hr, hdisj⟩ := hnd
      simp only [childLeavesDisjoint, Bool.and_eq_true, List.all_eq_true,
        decide_eq_true_eq]
      exact ⟨⟨fun s hs => hdisj hs, ihl hl⟩, ihr hr⟩

/-- Any list of length at least two decomposes as its double-`dropLast`
prefix followed by its last two elements, exactly the shape the merge loop
consumes. -/
theorem list_eq_dropLast_two {α : Type} (d : α) (roots : List α)
    (h2 : 2 ≤ roots.length) :
    roots = roots.dropLast.dropLast ++
      [roots.dropLast.getLastD d, roots.getLastD d] := by
  rcases List.eq_nil_or_concat roots with hnil | ⟨L, b, rfl⟩
  · subst hnil
    simp at h2
  · rcases List.eq_nil_or_concat L with hnil | ⟨M, a, rfl⟩
    · subst hnil
      simp [List.concat_eq_append] at h2
    · rw [List.concat_eq_append, List.concat_eq_append]
      rw [List.dropLast_concat, List.dropLast_concat, List.getLastD_concat,
        List.getLastD_concat]
      simp

/-- One iteration of the merge loop preserves the forest invariant: the
concatenation of all leaf symbols stays duplicate-free and every root stays
range-consistent. -/
theorem mergeStep_inv (xs : List HTree) (a b : HTree)
    (hnd : ((xs ++ [a, b]).flatMap HTree.leavesOf).Nodup)
    (hrc : ∀ t ∈ xs ++ [a, b], rangeConsistent t = true) :
    ((sortByFreqDesc (xs ++ [mkBranch a b])).flatMap HTree.leavesOf).Nodup ∧
      ∀ t ∈ sortByFreqDesc (xs ++ [mkBranch a b]), rangeConsistent t = true := by
  have hamem : a ∈ xs ++ [a, b] :=
    List.mem_append_right _ (List.mem_cons_self _ _)
  have hbmem : b ∈ xs ++ [a, b] :=
    List.mem_append_right _ (List.mem_cons_of_mem _ (List.mem_cons_self _ _))
  have hnd0 : ((xs ++ [mkBranch a b]).flatMap HTree.leavesOf).Nodup := by
    simp only [List.flatMap_append, List.flatMap_cons, List.flatMap_nil,
      List.append_nil] at hnd ⊢
    simpa only [mkBranch, HTree.leavesOf, List.append_assoc] using hnd
  have hrc0 : ∀ t ∈ xs ++ [mkBranch a b], rangeConsistent t = true := by
    intro t ht
    rcases List.mem_append.mp ht with hm | hm
    · exact hrc t (List.mem_append_left _ hm)
    · rw [List.mem_singleton] at hm
      subst hm
      exact rangeConsistent_mkBranch (hrc _ hamem) (hrc _ hbmem)
  have hperm : (xs ++ [mkBranch a b]).Perm (sortByFreqDesc (xs ++ [mkBranch a b])) :=
    (List.perm_insertionSort _ _).symm
  exact ⟨((hperm.flatMap_right HTree.leavesOf).nodup_iff).mp hnd0,
    fun t ht => hrc0 t (hperm.mem_iff.mpr ht)⟩

/-- The merge loop preserves the forest invariant down to its final tree:
the result has duplicate-free leaf symbols and is range-consistent. -/
theorem mergeLoopGo_inv (fuel : Nat) : ∀ (roots : List HTree),
    (roots.flatMap HTree.leavesOf).Nodup →
    (∀ t ∈ roots, rangeConsistent t = true) →
    (mergeLoopGo fuel roots).leavesOf.Nodup ∧
      rangeConsistent (mergeLoopGo fuel roots) = true := by
  induction fuel with
  | zero =>
      intro roots hnd hrc
      cases roots with
      | nil => exact ⟨List.nodup_singleton 0, rfl⟩
      | cons t ts =>
          cases ts with
          | nil =>
              refine ⟨?_, hrc t (List.mem_cons_self _ _)⟩
              show t.leavesOf.Nodup
              simpa using hnd
          | cons t₂ rest =>
              refine ⟨?_, hrc t (List.mem_cons_self _ _)⟩
              show t.leavesOf.Nodup
              simp only [List.flatMap_cons] at hnd
              exact (List.nodup_append.mp hnd).1
  | succ n ih =>
      intro roots hnd hrc
      cases roots with
      | nil => exact ⟨List.nodup_singleton 0, rfl⟩
      | cons t ts =>
          cases ts with
          | nil =>
              refine ⟨?_, hrc t (List.mem_cons_self _ _)⟩
              show t.leavesOf.Nodup
              simpa using hnd
          | cons t₂ rest =>
              have h2 : 2 ≤ (t :: t₂ :: rest).length := by
                simp only [List.length_cons]
                omega
              have hdecomp := list_eq_dropLast_two dfltNode (t :: t₂ :: rest) h2
              rw [hdecomp] at hnd hrc
              obtain ⟨hnd1, hrc1⟩ := mergeStep_inv _ _ _ hnd hrc
              exact ih _ hnd1 hrc1

/-- Forgetting the frequencies, the leaf symbols of `CxiHuffmanInit`'s leaf
array are just the used symbols themselves. -/
theorem flatMap_leavesOf_map_leaf (g fr : Nat → Nat) (l : List Nat) :
    (l.map (fun i => HTree.leaf (g i) (fr i))).flatMap HTree.leavesOf = l.map g := by
  induction l with
  | nil => rfl
  | cons a t ih => simp [HTree.leavesOf, ih]

/-- For an alphabet of at most `2^16` symbols (the `uint16_t` symbol field),
the initial leaf array carries pairwise distinct symbols. -/
theorem usedLeaves_nodup_leaves (h : Hist) (n : Nat) (hn : n ≤ 65536) :
    ((usedLeaves h n).flatMap HTree.leavesOf).Nodup := by
  rw [usedLeaves, flatMap_leavesOf_map_leaf]
  have hcongr : (presentSyms h n).map (fun i => i % 65536) = presentSyms h n := by
    have hmem : ∀ i ∈ presentSyms h n, i % 65536 = i := by
      intro i hi
      rw [presentSyms_eq_filter] at hi
      have hrange := List.mem_range.mp (List.mem_filter.mp hi).1
      exact Nat.mod_eq_of_lt (by omega)
    calc (presentSyms h n).map (fun i => i % 65536)
        = (presentSyms h n).map id := List.map_congr_left hmem
      _ = presentSyms h n := List.map_id _
  rw [hcongr, presentSyms_eq_filter]
  exact (List.nodup_range n).filter _

/-- Every initial leaf is trivially range-consistent. -/
theorem usedLeaves_rangeConsistent (h : Hist) (n : Nat) :
    ∀ t ∈ usedLeaves h n, rangeConsistent t = true := by
  intro t ht
  rw [usedLeaves] at ht
  obtain ⟨i, _, rfl⟩ := List.mem_map.mp ht
  rfl

/-- C5: every tree produced by the Huffman builder
(`CxiHuffmanConstructTree` followed by `CxiHuffmanMakeShallowFirst`) on a
histogram over at most `2^16` symbols satisfies the claimed structural
invariants: every leaf's symbol is unique (hence the leaf-symbol sets of
the two children of any internal node are disjoint), every stored
`symMin`/`symMax` range bounds exactly the leaves of its subtree with both
bounds attained, and at every internal node
`left.nRepresent ≤ right.nRepresent`. -/
theorem c5_huffman_builder_invariants (h : Hist) (n : Nat) (hn : n ≤ 65536) :
    (cxiHuffmanConstructTree h n).leavesOf.Nodup ∧
    childLeavesDisjoint (cxiHuffmanConstructTree h n) = true ∧
    rangeConsistent (cxiHuffmanConstructTree h n) = true ∧
    shallowFirstOrdered (cxiHuffmanConstructTree h n) = true := by
  have hinner : ∀ t : HTree, t.leavesOf.Nodup → rangeConsistent t = true →
      (cxiHuffmanMakeShallowFirst t).leavesOf.Nodup ∧
      childLeavesDisjoint (cxiHuffmanMakeShallowFirst t) = true ∧
      rangeConsistent (cxiHuffmanMakeShallowFirst t) = true ∧
      shallowFirstOrdered (cxiHuffmanMakeShallowFirst t) = true := by
    intro t hndt hrct
    have hndsf : (cxiHuffmanMakeShallowFirst t).leavesOf.Nodup :=
      ((leavesOf_makeShallowFirst t).nodup_iff).mpr hndt
    exact ⟨hndsf, childLeavesDisjoint_of_nodup hndsf,
      rangeConsistent_makeShallowFirst hrct, shallowFirstOrdered_makeShallowFirst t⟩
  rw [cxiHuffmanConstructTree]
  split
  · split
    · exact hinner dfltNode (List.nodup_singleton 0) rfl
    · exact hinner (HTree.leaf 0 (h 0)) (List.nodup_singleton 0) rfl
  · have hnd0 := usedLeaves_nodup_leaves h n hn
    have hrc0 := usedLeaves_rangeConsistent h n
    have hperm : (usedLeaves h n).Perm (sortByFreqDesc (usedLeaves h n)) :=
      (List.perm_insertionSort _ _).symm
    have hnd1 : ((sortByFreqDesc (usedLeaves h n)).flatMap HTree.leavesOf).Nodup :=
      ((hperm.flatMap_right HTree.leavesOf).nodup_iff).mp hnd0
    have hrc1 : ∀ t ∈ sortByFreqDesc (usedLeaves h n), rangeConsistent t = true :=
      fun t ht => hrc0 t (hperm.mem_iff.mpr ht)
    obtain ⟨hnd2, hrc2⟩ := mergeLoopGo_inv (sortByFreqDesc (usedLeaves h n)).length
      (sortByFreqDesc (usedLeaves h n)) hnd1 hrc1
    exact hinner _ hnd2 hrc2

/-- Witness for C5 at a concrete five-symbol histogram. -/
theorem c5_huffman_builder_invariants_witness :
    (cxiHuffmanConstructTree (fun i => [3, 1, 4, 1, 5].getD i 0) 5).leavesOf.Nodup ∧
    childLeavesDisjoint
      (cxiHuffmanConstructTree (fun i => [3, 1, 4, 1, 5].getD i 0) 5) = true ∧
    rangeConsistent
      (cxiHuffmanConstructTree (fun i => [3, 1, 4, 1, 5].getD i 0) 5) = true ∧
    shallowFirstOrdered
      (cxiHuffmanConstructTree (fun i => [3, 1, 4, 1, 5].getD i 0) 5) = true :=
  c5_huffman_builder_invariants (fun i => [3, 1, 4, 1, 5].getD i 0) 5 (by decide)

/-- Witness for C2 at a concrete input: the compression of `aaaa`. -/
theorem c2_header_invariants_witness :
    (cxCompressAsh [0x61, 0x61, 0x61, 0x61] 9 11 0).take 4 = [0x41, 0x53, 0x48, 0x30] ∧
    ashDeclaredSize (cxCompressAsh [0x61, 0x61, 0x61, 0x61] 9 11 0) = 4 ∧
    12 ≤ be32At (cxCompressAsh [0x61, 0x61, 0x61, 0x61] 9 11 0) 8 ∧
    be32At (cxCompressAsh [0x61, 0x61, 0x61, 0x61] 9 11 0) 8 % 4 = 0 ∧
    be32At (cxCompressAsh [0x61, 0x61, 0x61, 0x61] 9 11 0) 8 <
      (cxCompressAsh [0x61, 0x61, 0x61, 0x61] 9 11 0).length :=
  c2_header_invariants [0x61, 0x61, 0x61, 0x61] 9 11 0 (by decide) (by decide)

end Ash
